import Mathlib

/-!
# A shallow embedding of `knowledge.py`

This file embeds the term-graph engine of the knowledge base: the node
arena with parent/child links, alias table, name-based depth-first lookup
(`traverse`), ancestry computation (`get_ancestry`), the redundancy
pruning pass (`prune_tree`), relationship insertion (`add_kind_of`), the
rename pass (`update_names`), list reduction with its shared accumulator
(`list_reduce` / `get_terms`), and the removal and query operations.

Python objects are addressed by arena indices (object identity = index);
Python lists are Lean lists; `list.remove` is `List.erase` (first
occurrence); the unbounded recursions of the source are given explicit
fuel and return `none` when it runs out.  The distinguished global `obj`
is the node at index 0, created first; `aliases` is an association list.
Console output is modelled by a message log (newest first).
-/

namespace Knowledge

/-- A term node: its current name and the indices of its children and
parents, in Python list order. -/
structure Term where
  name : String
  children : List Nat
  parents : List Nat
deriving DecidableEq, Repr

/-- The whole interpreter state: the node arena (index = identity), the
alias table in insertion order, the shared accumulator that is the
mutable default argument of `list_reduce`, and the console log. -/
structure KB where
  terms : List Term
  aliases : List (String × String)
  lrAcc : List Nat
  log : List String
deriving DecidableEq, Repr

/-- Read the node at index `i` (out-of-range reads give a dummy node;
they do not occur on states built by the operations). -/
def KB.term (s : KB) (i : Nat) : Term :=
  s.terms.getD i ⟨"", [], []⟩

/-- Replace the node at index `i` by `f` of it. -/
def KB.upd (s : KB) (i : Nat) (f : Term → Term) : KB :=
  { s with terms := s.terms.set i (f (s.term i)) }

/-- Append a fresh node (a Python `Term(name)` construction); its index
is the current arena length. -/
def KB.alloc (s : KB) (name : String) : KB :=
  { s with terms := s.terms ++ [⟨name, [], []⟩] }

/-- Record a console message. -/
def KB.say (s : KB) (m : String) : KB :=
  { s with log := m :: s.log }

/-- One alias lookup, as at the top of `Term.traverse`: if `name` is a
registered alias key, substitute its value, else keep `name`. -/
def KB.resolve (s : KB) (n : String) : String :=
  match s.aliases.lookup n with
  | some t => t
  | none => n

/-- The initial knowledge base: the arena holds only the root term
`object` (index 0), no aliases, an empty shared accumulator. -/
def init : KB := ⟨[⟨"object", [], []⟩], [], [], []⟩

/-! ## `Term.traverse`: depth-first search by (alias-resolved) name.

`traverse` re-applies the alias substitution at every recursion level and
passes the substituted name down, exactly as the source does.  Result:
`none` = fuel ran out, `some none` = not found, `some (some i)` = found
node `i`. -/

def traverse : Nat → KB → Nat → String → Option (Option Nat)
  | 0, _, _, _ => none
  | fuel + 1, s, v, name =>
    let n := s.resolve name
    if (s.term v).name = n then some (some v)
    else
      (s.term v).children.foldl
        (fun acc c =>
          match acc with
          | none => none
          | some (some r) => some (some r)
          | some none => traverse fuel s c n)
        (some none)

/-- The loop of `traverse` over a child list: try each child in order,
returning the first hit (later iterations of the fold cannot change a
found result, matching the `return` in the source). -/
def travList (fuel : Nat) (s : KB) (cs : List Nat) (n : String) :
    Option (Option Nat) :=
  cs.foldl
    (fun acc c =>
      match acc with
      | none => none
      | some (some r) => some (some r)
      | some none => traverse fuel s c n)
    (some none)

/-! ## Edge removal (`Term.remove_child`, `Term.remove_parent`)

The Term-argument variants touch the lists directly; the string-argument
variants first run `obj.traverse` from the root (index 0) and on failure
print and abort, leaving the graph unchanged. -/

/-- `Term.remove_child` with a `Term` argument: drop the first occurrence
of `c` from `p`'s children (a no-op when absent). -/
def removeChildTerm (s : KB) (p c : Nat) : KB :=
  if c ∈ (s.term p).children then
    s.upd p (fun t => { t with children := t.children.erase c })
  else s

/-- `Term.remove_parent` with a `Term` argument: if `p` is a parent of
`v`, also drop `v` from `p`'s children, then drop `p` from `v`'s
parents. -/
def removeParentTerm (s : KB) (v p : Nat) : KB :=
  if p ∈ (s.term v).parents then
    let s₁ := removeChildTerm s p v
    s₁.upd v (fun t => { t with parents := t.parents.erase p })
  else s

/-- The fatal message printed when a name lookup fails during removal. -/
def itemMissing : String := "FATAL: Item does not exist."

/-- `Term.remove_child` with a string argument. -/
def removeChildByName (fuel : Nat) (s : KB) (p : Nat) (name : String) :
    Option KB :=
  match traverse fuel s 0 name with
  | none => none
  | some none => some (s.say itemMissing)
  | some (some c) => some (removeChildTerm s p c)

/-- `Term.remove_parent` with a string argument. -/
def removeParentByName (fuel : Nat) (s : KB) (v : Nat) (name : String) :
    Option KB :=
  match traverse fuel s 0 name with
  | none => none
  | some none => some (s.say itemMissing)
  | some (some p) => some (removeParentTerm s v p)

/-! ## Ancestry values

`Term.get_ancestry` returns, for each parent, the Python list
`[parent_name, sub₁, sub₂, …]` where the `subᵢ` are the analogous lists
for each of the parent's own parents.  Such a value is a `Chain`:
a head name plus a list of sub-chains.  (`Chain` and `ChainList` are a
mutual pair so that structural recursion over them stays simple.)
Membership `chain ∈ python-list` can only match the sub-chain elements,
never the head string, so it is membership in the sub-chain list. -/

mutual

inductive Chain where
  | node : String → ChainList → Chain

inductive ChainList where
  | nil : ChainList
  | cons : Chain → ChainList → ChainList

end

/-- Head name of a chain (`anode[0]` in the source). -/
def Chain.hd : Chain → String
  | .node n _ => n

/-- Sub-chains of a chain (`anode[1:]`). -/
def Chain.subs : Chain → ChainList
  | .node _ l => l

mutual

/-- Structural equality of chains, as Python `==` on the nested lists. -/
def chainBeq : Chain → Chain → Bool
  | .node a as, .node b bs => a = b && chainListBeq as bs

def chainListBeq : ChainList → ChainList → Bool
  | .nil, .nil => true
  | .cons x xs, .cons y ys => chainBeq x y && chainListBeq xs ys
  | _, _ => false

end

/-- `c in anode` for a chain `c` and a Python ancestry node: `c` can only
equal one of the sub-chain elements. -/
def chainMem (c : Chain) : ChainList → Bool
  | .nil => false
  | .cons x xs => chainBeq c x || chainMem c xs

mutual

/-- Size measure on chains (number of constructors). -/
def chainSize : Chain → Nat
  | .node _ l => chainListSize l + 1

def chainListSize : ChainList → Nat
  | .nil => 0
  | .cons x xs => chainSize x + chainListSize xs + 1

end

/-- `Term.get_ancestry`: one chain per parent of `v`; the chain for a
parent `p` is `p`'s name followed by the full ancestry of `p` (the
fold builds the chains in parent-list order; a fuel failure anywhere
makes the whole call fail, as the Python recursion would not return). -/
def getAncestry : Nat → KB → Nat → Option ChainList
  | 0, _, _ => none
  | fuel + 1, s, v =>
    (s.term v).parents.foldr
      (fun p acc =>
        match getAncestry fuel s p, acc with
        | some subs, some rest =>
          some (.cons (.node (s.term p).name subs) rest)
        | _, _ => none)
      (some .nil)

/-- The body of `getAncestry` as a function of the parent list. -/
def ancList (fuel : Nat) (s : KB) (ps : List Nat) : Option ChainList :=
  ps.foldr
    (fun p acc =>
      match getAncestry fuel s p, acc with
      | some subs, some rest =>
        some (.cons (.node (s.term p).name subs) rest)
      | _, _ => none)
    (some .nil)

/-! ## The pruning pass (`Term.prune_tree`)

For every pair of chains `(parent1, parent2)` of the node being pruned
(the outer loop iterates a snapshot, the inner loop recomputes the
ancestry for each outer element), the inner `while` walks `parent2` down
through first sub-chains; whenever `parent1` occurs among the current
sub-chains, `self.remove_parent(parent1[0])` is executed, which resolves
the head name through `obj.traverse` from the root.  Afterwards the pass
recurses into the children, iterating the live list by index. -/

/-- The `while len(parent2) > 1` walk for one pair of chains, pruning
parents of node `v`. -/
def pruneWalk (fuel : Nat) (v : Nat) (p1 : Chain) :
    Chain → KB → Option KB
  | .node _ .nil, s => some s
  | .node _ (.cons c0 rest), s =>
    match
      (if chainMem p1 (.cons c0 rest) then
        removeParentByName fuel s v p1.hd
      else some s) with
    | none => none
    | some s' => pruneWalk fuel v p1 c0 s'

/-- The inner `for parent2 in self.get_ancestry()` loop body over a
snapshot of chains. -/
def pruneInner (fuel : Nat) (v : Nat) (p1 : Chain) :
    ChainList → KB → Option KB
  | .nil, s => some s
  | .cons p2 rest, s =>
    match pruneWalk fuel v p1 p2 s with
    | none => none
    | some s' => pruneInner fuel v p1 rest s'

/-- The outer `for parent1 in self.get_ancestry()` loop over the initial
snapshot; the inner snapshot is recomputed from the current state for
each outer element. -/
def pruneOuter (fuel : Nat) (v : Nat) :
    ChainList → KB → Option KB
  | .nil, s => some s
  | .cons p1 rest, s =>
    match getAncestry fuel s v with
    | none => none
    | some anc2 =>
      match pruneInner fuel v p1 anc2 s with
      | none => none
      | some s' => pruneOuter fuel v rest s'

/-- The two kinds of call in the `prune_tree` recursion: prune a node,
or continue the `for child in self.children` loop of node `v` at index
`i` (Python's live-list iteration: each step re-reads the current
children list). -/
inductive PruneCall where
  | tree : Nat → PruneCall
  | kids : Nat → Nat → PruneCall
deriving DecidableEq, Repr

/-- `Term.prune_tree`, one fuel unit per call: on `tree v`, run the
double ancestry loop and start the child loop; on `kids v i`, visit the
element at index `i` of the current children list if it exists. -/
def pruneGo : Nat → KB → PruneCall → Option KB
  | 0, _, _ => none
  | fuel + 1, s, .tree v =>
    match getAncestry (fuel + 1) s v with
    | none => none
    | some anc =>
      match pruneOuter (fuel + 1) v anc s with
      | none => none
      | some s₁ => pruneGo fuel s₁ (.kids v 0)
  | fuel + 1, s, .kids v i =>
    let cs := (s.term v).children
    if h : i < cs.length then
      match pruneGo fuel s (.tree (cs.get ⟨i, h⟩)) with
      | none => none
      | some s' => pruneGo fuel s' (.kids v (i + 1))
    else some s

/-- `Term.prune_tree` on node `v`. -/
def pruneTree (fuel : Nat) (s : KB) (v : Nat) : Option KB :=
  pruneGo fuel s (.tree v)

/-! ## Insertion (`Term.add_child`, `Term.add_parent`, `add_kind_of`) -/

/-- `Term.add_parent` on child `c`: refuse if `c` already has a parent
with the same *name*; otherwise append and run `obj.prune_tree()` from
the root.  The Boolean is the source's return value. -/
def addParent (fuel : Nat) (s : KB) (c p : Nat) : Option (KB × Bool) :=
  if (s.term c).parents.any
      (fun q => (s.term q).name = (s.term p).name) then
    some (s, false)
  else
    let s₁ := s.upd c (fun t => { t with parents := t.parents ++ [p] })
    match pruneTree fuel s₁ 0 with
    | none => none
    | some s₂ => some (s₂, true)

/-- `Term.add_child` on parent `p`: refuse if `p` already has a child
with the same name; otherwise append the child and connect the parent
side. -/
def addChild (fuel : Nat) (s : KB) (p c : Nat) : Option (KB × Bool) :=
  if (s.term p).children.any
      (fun q => (s.term q).name = (s.term c).name) then
    some (s, false)
  else
    let s₁ := s.upd p (fun t => { t with children := t.children ++ [c] })
    addParent fuel s₁ c p

/-- The warning printed when the parent of a new relationship is
unknown. -/
def parentMissing (y : String) : String :=
  "WARNING: Parent object " ++ y ++ " does not exist."

/-- `add_kind_of x y`: find or create the term for `x`; find the term
for `y`, auto-creating it under the root (with a warning) via a
recursive call when absent; then link.  If `y` still cannot be found
after the recursive call the source dereferences `None` and the process
dies: modelled as `none`. -/
def addKindOf : Nat → KB → String → String → Option KB
  | 0, _, _, _ => none
  | fuel + 1, s, x, y =>
    match traverse (fuel + 1) s 0 x with
    | none => none
    | some r =>
      let xi := match r with | some i => i | none => s.terms.length
      let s₁ := match r with | some _ => s | none => s.alloc x
      match traverse (fuel + 1) s₁ 0 y with
      | none => none
      | some (some j) =>
        match addChild (fuel + 1) s₁ j xi with
        | none => none
        | some (s₂, _) => some s₂
      | some none =>
        let s₂ := s₁.say (parentMissing y)
        match addKindOf fuel s₂ y "object" with
        | none => none
        | some s₃ =>
          match traverse (fuel + 1) s₃ 0 y with
          | none => none
          | some none => none
          | some (some j) =>
            match addChild (fuel + 1) s₃ j xi with
            | none => none
            | some (s₄, _) => some s₄

/-! ## Aliases (`make_alias`) and the rename pass (`Term.update_names`) -/

/-- `make_alias`: if the target resolves to an existing term use that
term's current name; register only when the alias key is new. -/
def makeAlias (fuel : Nat) (s : KB) (a t : String) : Option KB :=
  match traverse fuel s 0 t with
  | none => none
  | some r =>
    let t' := match r with | some i => (s.term i).name | none => t
    some (if (s.aliases.lookup a).isSome then s
          else { s with aliases := s.aliases ++ [(a, t')] })

/-- `Term.update_names`: walk down from `v`, replacing any node name
that is an alias key by its value.  (Name updates do not change any
children list, so the loop iterates the list read after the rename.) -/
def updateNames : Nat → KB → Nat → Option KB
  | 0, _, _ => none
  | fuel + 1, s, v =>
    let s₁ :=
      match s.aliases.lookup (s.term v).name with
      | some t => s.upd v (fun u => { u with name := t })
      | none => s
    (s₁.term v).children.foldl
      (fun acc c =>
        match acc with
        | none => none
        | some s' => updateNames fuel s' c)
      (some s₁)

/-- An alias declaration as the interactive loop performs it:
`make_alias` followed by `obj.update_names()`. -/
def declareAlias (fuel : Nat) (s : KB) (a t : String) : Option KB :=
  match makeAlias fuel s a t with
  | none => none
  | some s₁ => updateNames fuel s₁ 0

/-! ## `Term.list_reduce` and `get_terms`

`list_reduce`'s accumulator parameter defaults to a module-level mutable
list, so calls from `get_terms` share and extend one persistent list:
the state field `lrAcc`. -/

def listReduce : Nat → KB → Nat → List Nat → Option (List Nat)
  | 0, _, _, _ => none
  | fuel + 1, s, v, acc =>
    let acc₁ := if v ∈ acc then acc else acc ++ [v]
    (s.term v).children.foldl
      (fun a c =>
        match a with
        | none => none
        | some l => listReduce fuel s c l)
      (some acc₁)

/-- `get_terms`: names of `obj.list_reduce()` (which *extends the shared
accumulator*), then every alias key whose key string is not already
listed. -/
def getTerms (fuel : Nat) (s : KB) : Option (List String × KB) :=
  match listReduce fuel s 0 s.lrAcc with
  | none => none
  | some acc =>
    let names := acc.map (fun i => (s.term i).name)
    let names₂ := s.aliases.foldl
      (fun ns kv => if kv.1 ∈ ns then ns else ns ++ [kv.1]) names
    some (names₂, { s with lrAcc := acc })

/-- The message printed by `is_kind_of` when the parent is unknown. -/
def parentAbsent (y : String) : String :=
  "FATAL: Parent object " ++ y ++ " does not exist."

/-- `is_kind_of x y`: find `y`'s term from the root; report failure when
absent (the source then returns Python `None`: modelled `none` in the
inner option); otherwise search for `x` within `y`'s subtree. -/
def isKindOf (fuel : Nat) (s : KB) (x y : String) :
    Option (KB × Option Bool) :=
  match traverse fuel s 0 y with
  | none => none
  | some none => some (s.say (parentAbsent y), none)
  | some (some p) =>
    match traverse fuel s p x with
    | none => none
    | some none => some (s, some false)
    | some (some _) => some (s, some true)

/-! ## Specification-side notions

These definitions translate phrases of the specification so that claims
about them can be compared with the behaviour of the embedded code. -/

mutual

/-- A chain is *linear* when no node in it has more than one sub-chain:
the shape an ancestry chain would have if it followed only the first
recorded parent of each ancestor and never branched. -/
def chainLinear : Chain → Bool
  | .node _ l => chainListLinear l

def chainListLinear : ChainList → Bool
  | .nil => true
  | .cons c .nil => chainLinear c
  | .cons _ (.cons _ _) => false

end

/-- All chains of an ancestry result are linear. -/
def chainsLinear : ChainList → Bool
  | .nil => true
  | .cons c cs => chainLinear c && chainsLinear cs

/-- `upChain s v l`: `l` is a non-empty sequence of successive parent
links starting at `v` and ending at the root node 0 — a root-to-`v`
ancestry path of the specification, read bottom-up. -/
def upChain (s : KB) : Nat → List Nat → Bool
  | _, [] => false
  | v, [w] => decide (w ∈ (s.term v).parents) && decide (w = 0)
  | v, w :: u :: rest => decide (w ∈ (s.term v).parents) &&
      upChain s w (u :: rest)

/-- The specification's redundancy condition for a direct parent edge
`v → p`: the edge exists, and dropping it still leaves `v` connected to
the root through another chain containing the same ancestor `p` (a
root-to-`v` path whose first hop is not `p` but which passes through
`p`). -/
def specRedundantParent (s : KB) (v p : Nat) : Prop :=
  p ∈ (s.term v).parents ∧
    ∃ l, upChain s v l = true ∧ p ∈ l ∧ l.head? ≠ some p

/-- `add_kind_of x y` diverges from state `s`: no amount of fuel makes
it return (the Python process never comes back from the call). -/
def addDiverges (s : KB) (x y : String) : Prop :=
  ∀ fuel, addKindOf fuel s x y = none

/-! ## Concrete scenario states -/

/-- Scenario of claim C1: dog→mammal, mammal→animal, dog→animal. -/
def runC1 : Option KB := do
  let s1 ← addKindOf 30 init "dog" "mammal"
  let s2 ← addKindOf 30 s1 "mammal" "animal"
  addKindOf 30 s2 "dog" "animal"

/-- The state `runC1` produces (dog = 1, mammal = 2, animal = 3). -/
def sC1 : KB :=
  ⟨[⟨"object", [3], []⟩, ⟨"dog", [], [2]⟩, ⟨"mammal", [1], [3]⟩,
    ⟨"animal", [2], [0]⟩], [], [],
   [parentMissing "animal", parentMissing "mammal"]⟩

/-- A state in which `mammal` keeps two parents, so the ancestry of
`dog` (index 4) branches past the first hop. -/
def runBranch : Option KB := do
  let s1 ← addKindOf 30 init "mammal" "animal"
  let s2 ← addKindOf 30 s1 "mammal" "pet"
  addKindOf 30 s2 "dog" "mammal"

/-- The state `runBranch` produces (mammal = 1, dog = 4). -/
def sBranch : KB :=
  ⟨[⟨"object", [2, 3], []⟩, ⟨"mammal", [4], [2, 3]⟩,
    ⟨"animal", [1], [0]⟩, ⟨"pet", [1], [0]⟩, ⟨"dog", [], [1]⟩],
   [], [], [parentMissing "pet", parentMissing "animal"]⟩

/-- Claim C3 scenario: two terms `cat` and `feline` under the root, then
the alias declaration `feline → cat` renames the second. -/
def runC3 : Option KB := do
  let s1 ← addKindOf 30 init "cat" "object"
  let s2 ← addKindOf 30 s1 "feline" "object"
  declareAlias 30 s2 "feline" "cat"

/-- The state `runC3` produces: two distinct reachable nodes both named
`cat`. -/
def sC3 : KB :=
  ⟨[⟨"object", [1, 2], []⟩, ⟨"cat", [], [0]⟩, ⟨"cat", [], [0]⟩],
   [("feline", "cat")], [], []⟩

/-- Claim C4 scenario: with alias `a → b` registered, one call
`add_kind_of a b` builds object→b→a. -/
def runC4 : Option KB := do
  let s0 ← declareAlias 30 init "a" "b"
  addKindOf 30 s0 "a" "b"

/-- The state `runC4` produces (a = 1, b = 2). -/
def sC4 : KB :=
  ⟨[⟨"object", [2], []⟩, ⟨"a", [], [2]⟩, ⟨"b", [1], [0]⟩],
   [("a", "b")], [], [parentMissing "b"]⟩

/-- Claim C7 scenario states: add dog, list, unlink dog, list again. -/
def c7s1 : KB := ⟨[⟨"object", [1], []⟩, ⟨"dog", [], [0]⟩], [], [], []⟩
def c7s2 : KB := ⟨[⟨"object", [1], []⟩, ⟨"dog", [], [0]⟩], [], [0, 1], []⟩
def c7s3 : KB := ⟨[⟨"object", [], []⟩, ⟨"dog", [], [0]⟩], [], [0, 1], []⟩
def c7s4 : KB := ⟨[⟨"object", [], []⟩, ⟨"dog", [], [0]⟩], [], [0, 1], []⟩

/-- Claim C8 scenario: declaring `object` as an alias for `zzz` renames
the root. -/
def runC8 : Option KB := declareAlias 20 init "object" "zzz"

/-- The state `runC8` produces: the root is now named `zzz`. -/
def sC8 : KB := ⟨[⟨"zzz", [], []⟩], [("object", "zzz")], [], []⟩

/-- Claim C9 scenario: unlink `dog` from the root's children by name. -/
def runC9 : Option KB := do
  let s1 ← addKindOf 20 init "dog" "object"
  removeChildByName 20 s1 0 "dog"

/-- The state `runC9` produces: the child side of the edge is gone but
`dog` (index 1) still records the root as its parent. -/
def sC9 : KB := ⟨[⟨"object", [], []⟩, ⟨"dog", [], [0]⟩], [], [], []⟩

/-- Claim C10 scenario: v.parents = [A, B], B.parents = [C, D],
D.parents = [A].  The direct edge v→A is redundant in the
specification's sense (path v→B→D→A→object) but survives the pass,
because the containment walk only descends through first sub-chains. -/
def runC10 : Option KB := do
  let s1 ← addKindOf 40 init "A" "object"
  let s2 ← addKindOf 40 s1 "C" "object"
  let s3 ← addKindOf 40 s2 "D" "A"
  let s4 ← addKindOf 40 s3 "B" "C"
  let s5 ← addKindOf 40 s4 "B" "D"
  let s6 ← addKindOf 40 s5 "v" "A"
  addKindOf 40 s6 "v" "B"

/-- The state `runC10` produces (A = 1, C = 2, D = 3, B = 4, v = 5). -/
def sC10 : KB :=
  ⟨[⟨"object", [1, 2], []⟩, ⟨"A", [3, 5], [0]⟩, ⟨"C", [4], [0]⟩,
    ⟨"D", [4], [1]⟩, ⟨"B", [5], [2, 3]⟩, ⟨"v", [], [1, 4]⟩],
   [], [], []⟩

/-- The state the second `add_kind_of a b` call on `sC4` reaches just
before its pruning pass: resolution now sends `a` to the term `b`
(index 2), the name guards compare `b`'s name with itself on *different
nodes*' lists and pass, and `b` ends up listing itself among its
parents and children. -/
def sC4bad : KB :=
  ⟨[⟨"object", [2], []⟩, ⟨"a", [], [2]⟩, ⟨"b", [1, 2], [0, 2]⟩],
   [("a", "b")], [], [parentMissing "b"]⟩


/-- The two halves of `Term.add_child` + `Term.add_parent` before the
pruning pass: append `c` to `p`'s children, then `p` to `c`'s parents
(exactly the two list mutations the source performs when both name
guards pass). -/
def linkEdge (s : KB) (p c : Nat) : KB :=
  (s.upd p (fun t => { t with children := t.children ++ [c] })).upd c
    (fun t => { t with parents := t.parents ++ [p] })

/-- View a `ChainList` as a Lean list of chains. -/
def ChainList.toList : ChainList → List Chain
  | .nil => []
  | .cons c cs => c :: cs.toList

/-- The chain `get_ancestry` produces for a direct parent `p`: `p`'s
name over the *full* ancestry of `p` (all of `p`'s parents, nested). -/
def ChainFor (fuel : Nat) (s : KB) (p : Nat) (ch : Chain) : Prop :=
  ∃ subs, ch = Chain.node (s.term p).name subs ∧
    getAncestry fuel s p = some subs

/-- The ancestry value of `dog` in `sBranch`: a single chain that
branches at `mammal` into the `animal` and `pet` sub-chains. -/
def branchChain : ChainList :=
  .cons (.node "mammal"
    (.cons (.node "animal" (.cons (.node "object" .nil) .nil))
      (.cons (.node "pet" (.cons (.node "object" .nil) .nil)) .nil))) .nil

/-- Graph-shape equality: same arena size, same aliases, and the same
children and parents everywhere (names may differ). -/
def SameShape (s s' : KB) : Prop :=
  s'.terms.length = s.terms.length ∧ s'.aliases = s.aliases ∧
  ∀ i, (s'.term i).children = (s.term i).children ∧
    (s'.term i).parents = (s.term i).parents

/-! ## Proof-side notions: shrink order, joint edges, reachable states

These definitions support the proofs of the general claims: `Shrinks`
bounds what a pruning pass can change, `EdgeJ` is a doubly-linked edge
whose child has exactly one parent, and `ReachableNA` describes the
alias-free runs of the interactive loop. -/

/-- What any amount of pruning can do to a state: nothing but removing
elements from children/parents lists and logging; arena size, names,
aliases and the shared accumulator are untouched. -/
def Shrinks (s s' : KB) : Prop :=
  s'.terms.length = s.terms.length ∧ s'.aliases = s.aliases ∧
  s'.lrAcc = s.lrAcc ∧ (∃ pre, s'.log = pre ++ s.log) ∧
  ∀ i, (s'.term i).name = (s.term i).name ∧
    (s'.term i).children.Sublist (s.term i).children ∧
    (s'.term i).parents.Sublist (s.term i).parents


/-- A doubly-linked edge from child `c` (whose only parent is `p`) up to
`p`: the shape every freshly created relationship has. -/
def EdgeJ (s : KB) (c p : Nat) : Prop :=
  (s.term c).parents = [p] ∧ c ∈ (s.term p).children

/-- The state after `object is an alias for zzz` and then
`zzz is an alias for www`: single-hop resolution now sends `object` to
`zzz`, a name no term carries (the root is named `www`). -/
def sC5 : KB :=
  ⟨[⟨"www", [], []⟩], [("object", "zzz"), ("zzz", "www")], [], []⟩

/-- Invariant of the runaway `add_kind_of(object, object)` recursion on
descendants of `sC5`: the alias chain is in place, the root is named
`www` and childless, so no lookup of `object`, `dog` or `cat` can ever
succeed, while each recursion step only allocates unreachable nodes. -/
def C5Inv (s : KB) : Prop :=
  s.aliases = [("object", "zzz"), ("zzz", "www")] ∧
  (s.term 0).children = [] ∧ (s.term 0).name = "www" ∧
  0 < s.terms.length


/-- The state reached by `add_kind_of dog mammal` from the initial
knowledge base: `mammal` is auto-created under the root (index 2) and
`dog` (index 1) is linked beneath it. -/
def wC5 : KB :=
  ⟨[⟨"object", [2], []⟩, ⟨"dog", [], [2]⟩, ⟨"mammal", [1], [0]⟩],
   [], [], [parentMissing "mammal"]⟩

/-- The root invariant claim C8 is about: no aliases are registered, the
arena is nonempty, its node 0 is named `object` and parentless, and no
other node carries the name `object`. -/
def RootInv (s : KB) : Prop :=
  s.aliases = [] ∧ 0 < s.terms.length ∧ (s.term 0).name = "object" ∧
  (s.term 0).parents = [] ∧ ∀ i, i ≠ 0 → (s.term i).name ≠ "object"

/-- The knowledge-base states reachable from the initial state through
the interactive operations *except alias declarations*, with
relationships never naming `object` as the new child.  (The
counterexample to the original claim shows why alias declarations must
be excluded; adding `object` under another term makes the pruning pass
recurse forever, so such commands never complete.) -/
inductive ReachableNA : KB → Prop where
  | start : ReachableNA init
  | addRel (s : KB) (fuel : Nat) (x y : String) (s' : KB) :
      ReachableNA s → x ≠ "object" → addKindOf fuel s x y = some s' →
      ReachableNA s'
  | rmChild (s : KB) (fuel : Nat) (v : Nat) (n : String) (s' : KB) :
      ReachableNA s → removeChildByName fuel s v n = some s' →
      ReachableNA s'
  | rmParent (s : KB) (fuel : Nat) (v : Nat) (n : String) (s' : KB) :
      ReachableNA s → removeParentByName fuel s v n = some s' →
      ReachableNA s'
  | prune (s : KB) (fuel : Nat) (s' : KB) :
      ReachableNA s → pruneTree fuel s 0 = some s' → ReachableNA s'
  | query (s : KB) (fuel : Nat) (ns : List String) (s' : KB) :
      ReachableNA s → getTerms fuel s = some (ns, s') → ReachableNA s'
  | ask (s : KB) (fuel : Nat) (x y : String) (s' : KB) (r : Option Bool) :
      ReachableNA s → isKindOf fuel s x y = some (s', r) → ReachableNA s'

/-! ## Claim theorems: concrete scenarios -/

set_option maxHeartbeats 4000000

theorem traverse_succ (fuel : Nat) (s : KB) (v : Nat) (name : String) :
    traverse (fuel + 1) s v name =
      if (s.term v).name = s.resolve name then some (some v)
      else travList fuel s (s.term v).children (s.resolve name) := rfl

theorem getAncestry_succ (fuel : Nat) (s : KB) (v : Nat) :
    getAncestry (fuel + 1) s v = ancList fuel s (s.term v).parents := rfl

/-- C1.  Starting from the initial knowledge base, running
`add_relationship("dog","mammal")`, `add_relationship("mammal","animal")`
and `add_relationship("dog","animal")` leaves `dog` (the node found by
`traverse`, index 1) with exactly one direct parent, named `mammal`:
the direct dog→animal edge was pruned as redundant. -/
theorem claim_C1 :
    runC1 = some sC1 ∧
    traverse 30 sC1 0 "dog" = some (some 1) ∧
    (sC1.term 1).parents.map (fun p => (sC1.term p).name) = ["mammal"] :=
  ⟨by rfl, by decide, by decide⟩

/-- C2, counterexample.  In the reachable state `sBranch` (built by
`runBranch`), the term `dog` (index 4, found by `traverse`) has one
direct parent `mammal`, which kept two parents; `get_ancestry` returns
a chain that *branches past the first hop* (it contains a sub-chain for
every parent of `mammal`, not only the first), so the ancestry result
is not one linear first-parent sequence per direct parent as the claim
states. -/
theorem claim_C2_counterexample :
    runBranch = some sBranch ∧
    traverse 30 sBranch 0 "dog" = some (some 4) ∧
    (getAncestry 30 sBranch 4).map chainsLinear = some false :=
  ⟨by rfl, by decide, by decide⟩

/-- C3, counterexample.  Declaring the alias `feline → cat` in a state
with distinct terms `cat` (index 1) and `feline` (index 2) renames node
2 to `cat` without merging: afterwards two distinct nodes, both
reachable as children of the root, carry the same canonical name, so
the rename pass does produce name collisions. -/
theorem claim_C3_counterexample :
    runC3 = some sC3 ∧
    (sC3.term 1).name = "cat" ∧ (sC3.term 2).name = "cat" ∧
    1 ∈ (sC3.term 0).children ∧ 2 ∈ (sC3.term 0).children ∧
    (sC3.term 1).children = (sC3.term 2).children ∧ (1 : Nat) ≠ 2 :=
  ⟨by rfl, by decide, by decide, by decide, by decide, by decide,
   by decide⟩

/-- `get_ancestry` of the self-parenting node 2 of `sC4bad` never
returns, whatever the fuel. -/
theorem c4_anc_loop : ∀ f, getAncestry f sC4bad 2 = none := by
  intro f
  induction f with
  | zero => rfl
  | succ g ih =>
    rw [getAncestry_succ]
    show ancList g sC4bad [0, 2] = none
    simp only [ancList, List.foldr]
    rw [ih]
    cases getAncestry g sC4bad 0 <;> rfl

/-- Pruning node 2 of `sC4bad` therefore never returns. -/
theorem c4_prune_tree2 : ∀ f, pruneGo f sC4bad (.tree 2) = none := by
  intro f
  cases f with
  | zero => rfl
  | succ g =>
    show (match getAncestry (g + 1) sC4bad 2 with
      | none => (none : Option KB)
      | some anc =>
        match pruneOuter (g + 1) 2 anc sC4bad with
        | none => none
        | some s₁ => pruneGo g s₁ (.kids 2 0)) = none
    rw [c4_anc_loop]

/-- Neither does the child loop of the root of `sC4bad`. -/
theorem c4_prune_kids : ∀ f, pruneGo f sC4bad (.kids 0 0) = none := by
  intro f
  cases f with
  | zero => rfl
  | succ g =>
    show (match pruneGo g sC4bad (.tree 2) with
      | none => (none : Option KB)
      | some s' => pruneGo g s' (.kids 0 1)) = none
    rw [c4_prune_tree2]

/-- The full pruning pass from the root of `sC4bad` never returns. -/
theorem c4_prune_root : ∀ f, pruneGo f sC4bad (.tree 0) = none := by
  intro f
  cases f with
  | zero => rfl
  | succ g =>
    show pruneGo g sC4bad (.kids 0 0) = none
    exact c4_prune_kids g

/-- Re-running `add_kind_of a b` on `sC4` links `b` under itself and
then diverges inside the triggered pruning pass: no fuel suffices. -/
theorem c4_diverges : addDiverges sC4 "a" "b" := by
  intro fuel
  match fuel with
  | 0 => rfl
  | 1 => rfl
  | (g + 2) =>
    show (match (match pruneGo (g + 2) sC4bad (.tree 0) with
        | none => (none : Option (KB × Bool))
        | some s₂ => some (s₂, true)) with
      | none => (none : Option KB)
      | some (s₂, _) => some s₂) = none
    rw [c4_prune_root]

/-- C4, counterexample.  From the reachable state with alias `a → b`,
one `add_relationship(a, b)` call succeeds and yields `sC4`
(object→b→a); calling it a second time does *not* reproduce the same
graph: the second call diverges (it re-resolves `a` to the term `b`,
links `b` under itself, and the triggered pruning pass never
terminates), so applying the operation twice is not equivalent to
applying it once. -/
theorem claim_C4_counterexample :
    runC4 = some sC4 ∧ addDiverges sC4 "a" "b" :=
  ⟨by rfl, c4_diverges⟩

/-- C7.  The mutable-default accumulator of `list_reduce` persists
between `get_terms` calls: after listing, unlinking `dog` from the root
(so that no term named `dog` is reachable: `traverse` reports not
found) and listing again, the second `get_terms` still returns `dog` —
the claim's required behaviour (a fresh accumulator per call, result =
currently reachable names) is what the specification demands and the
code does not do. -/
theorem claim_C7_theorem :
    addKindOf 20 init "dog" "object" = some c7s1 ∧
    getTerms 20 c7s1 = some (["object", "dog"], c7s2) ∧
    removeChildByName 20 c7s2 0 "dog" = some c7s3 ∧
    traverse 20 c7s3 0 "dog" = some none ∧
    getTerms 20 c7s3 = some (["object", "dog"], c7s4) :=
  ⟨by rfl, by rfl, by rfl, by decide, by rfl⟩

/-- C8, counterexample.  The alias declaration `object is an alias for
zzz` (a public operation on the *initial* knowledge base) renames the
root itself: afterwards no term of the arena at all is named `object`,
so the state has no distinguished root term named `object`. -/
theorem claim_C8_counterexample :
    runC8 = some sC8 ∧
    sC8.terms.all (fun t => t.name ≠ "object") = true ∧
    sC8.terms.length = 1 :=
  ⟨by rfl, by decide, by decide⟩

/-- C9, counterexample.  After `add_kind_of dog object`,
`remove_child(object, "dog")` removes `dog` from the root's children
but leaves the root in `dog`'s parent list: the edge is *not* unlinked
completely as the claim states for `remove_child`. -/
theorem claim_C9_counterexample :
    runC9 = some sC9 ∧
    (sC9.term 0).children = [] ∧
    (sC9.term 1).name = "dog" ∧
    (sC9.term 1).parents = [0] :=
  ⟨by rfl, by decide, by decide, by decide⟩

/-- C10, counterexample.  The `add_relationship("v","B")` call of
`runC10` triggers the full pruning pass, yet in the resulting state the
reachable term `v` (index 5) still has the direct parent `A` (index 1)
although `v` is also connected to the root by the longer chain
v→B→D→A→object through the same ancestor: the specification's
redundancy-elimination condition does *not* hold for every reachable
term after the insertion. -/
theorem claim_C10_counterexample :
    runC10 = some sC10 ∧
    traverse 40 sC10 0 "v" = some (some 5) ∧
    specRedundantParent sC10 5 1 :=
  ⟨by rfl, by decide,
   by decide, [4, 3, 1, 0], by decide, by decide, by decide⟩


/-! ## State-access lemmas -/

theorem term_upd (s : KB) (p : Nat) (f : Term → Term) (i : Nat) :
    (s.upd p f).term i =
      if i = p ∧ p < s.terms.length then f (s.term p) else s.term i := by
  unfold KB.upd KB.term
  simp only [List.getD_eq_getElem?_getD, List.getElem?_set]
  by_cases hip : p = i
  · subst hip
    by_cases h : p < s.terms.length
    · simp [h]
    · simp [h, List.getElem?_eq_none (Nat.le_of_not_lt h)]
  · have : ¬(i = p ∧ p < s.terms.length) := fun hc => hip hc.1.symm
    simp [hip, this]

theorem term_say (s : KB) (m : String) (i : Nat) :
    (s.say m).term i = s.term i := rfl

theorem term_alloc (s : KB) (n : String) (i : Nat) :
    (s.alloc n).term i =
      if i = s.terms.length then ⟨n, [], []⟩ else s.term i := by
  unfold KB.alloc KB.term
  simp only [List.getD_eq_getElem?_getD, List.getElem?_append]
  by_cases hi : i = s.terms.length
  · subst hi; simp
  · rcases Nat.lt_or_ge i s.terms.length with h | h
    · simp [h, hi]
    · have h' : s.terms.length < i := Nat.lt_of_le_of_ne h (Ne.symm hi)
      have h2 : 1 ≤ i - s.terms.length := by omega
      simp [Nat.not_lt.mpr h, hi, List.getElem?_eq_none (l := s.terms) h,
        List.getElem?_eq_none (l := [(⟨n, [], []⟩ : Term)]) h2]

theorem name_upd (s : KB) (p : Nat) (f : Term → Term) (i : Nat)
    (h : ∀ t, (f t).name = t.name) :
    ((s.upd p f).term i).name = (s.term i).name := by
  rw [term_upd]
  by_cases hc : i = p ∧ p < s.terms.length
  · rw [if_pos hc, h, hc.1]
  · rw [if_neg hc]

theorem parents_upd (s : KB) (p : Nat) (f : Term → Term) (i : Nat)
    (h : ∀ t, (f t).parents = t.parents) :
    ((s.upd p f).term i).parents = (s.term i).parents := by
  rw [term_upd]
  by_cases hc : i = p ∧ p < s.terms.length
  · rw [if_pos hc, h, hc.1]
  · rw [if_neg hc]

theorem children_upd (s : KB) (p : Nat) (f : Term → Term) (i : Nat)
    (h : ∀ t, (f t).children = t.children) :
    ((s.upd p f).term i).children = (s.term i).children := by
  rw [term_upd]
  by_cases hc : i = p ∧ p < s.terms.length
  · rw [if_pos hc, h, hc.1]
  · rw [if_neg hc]

theorem mem_parents_lt (s : KB) (c p : Nat)
    (h : p ∈ (s.term c).parents) : c < s.terms.length := by
  by_contra hge
  have : s.term c = ⟨"", [], []⟩ := by
    unfold KB.term
    exact List.getD_eq_default _ _ (Nat.le_of_not_lt hge)
  rw [this] at h
  simp at h

theorem mem_children_lt (s : KB) (p c : Nat)
    (h : c ∈ (s.term p).children) : p < s.terms.length := by
  by_contra hge
  have : s.term p = ⟨"", [], []⟩ := by
    unfold KB.term
    exact List.getD_eq_default _ _ (Nat.le_of_not_lt hge)
  rw [this] at h
  simp at h

theorem length_removeChildTerm (s : KB) (p c : Nat) :
    (removeChildTerm s p c).terms.length = s.terms.length := by
  unfold removeChildTerm KB.upd
  by_cases h : c ∈ (s.term p).children
  · rw [if_pos h]; exact List.length_set ..
  · rw [if_neg h]

theorem removeChildTerm_children (s : KB) (p c : Nat) :
    ((removeChildTerm s p c).term p).children =
      (s.term p).children.erase c := by
  unfold removeChildTerm
  by_cases h : c ∈ (s.term p).children
  · rw [if_pos h, term_upd,
      if_pos ⟨rfl, mem_children_lt s p c h⟩]
  · rw [if_neg h, List.erase_of_not_mem h]

theorem removeChildTerm_term_ne (s : KB) (p c i : Nat) (h : i ≠ p) :
    (removeChildTerm s p c).term i = s.term i := by
  unfold removeChildTerm
  by_cases hm : c ∈ (s.term p).children
  · rw [if_pos hm, term_upd, if_neg (fun hc => h hc.1)]
  · rw [if_neg hm]

theorem removeChildTerm_parents (s : KB) (p c i : Nat) :
    ((removeChildTerm s p c).term i).parents = (s.term i).parents := by
  unfold removeChildTerm
  by_cases hm : c ∈ (s.term p).children
  · rw [if_pos hm, parents_upd]
    intro t; rfl
  · rw [if_neg hm]

theorem removeChildTerm_name (s : KB) (p c i : Nat) :
    ((removeChildTerm s p c).term i).name = (s.term i).name := by
  unfold removeChildTerm
  by_cases hm : c ∈ (s.term p).children
  · rw [if_pos hm, name_upd]
    intro t; rfl
  · rw [if_neg hm]

theorem sameShape_refl (s : KB) : SameShape s s :=
  ⟨rfl, rfl, fun _ => ⟨rfl, rfl⟩⟩

theorem sameShape_trans {s t u : KB}
    (h1 : SameShape s t) (h2 : SameShape t u) : SameShape s u :=
  ⟨h2.1.trans h1.1, h2.2.1.trans h1.2.1,
   fun i => ⟨(h2.2.2 i).1.trans (h1.2.2 i).1,
             (h2.2.2 i).2.trans (h1.2.2 i).2⟩⟩

theorem un_foldl_none (fuel : Nat) (cs : List Nat) :
    cs.foldl (fun acc c =>
      match acc with
      | none => none
      | some s' => updateNames fuel s' c) none = none := by
  induction cs with
  | nil => rfl
  | cons c cs ih => simp only [List.foldl]; exact ih

theorem ancList_forall (fuel : Nat) (s : KB) :
    ∀ (ps : List Nat) (l : ChainList), ancList fuel s ps = some l →
      List.Forall₂ (ChainFor fuel s) ps l.toList := by
  intro ps
  induction ps with
  | nil =>
    intro l h
    cases h
    exact List.Forall₂.nil
  | cons p ps ih =>
    intro l h
    unfold ancList at h
    simp only [List.foldr] at h
    cases ha : getAncestry fuel s p with
    | none => rw [ha] at h; nomatch h
    | some subs =>
      rw [ha] at h
      cases hr : (ancList fuel s ps) with
      | none => unfold ancList at hr; rw [hr] at h; nomatch h
      | some rest =>
        unfold ancList at hr
        rw [hr] at h
        cases h
        exact List.Forall₂.cons ⟨subs, rfl, ha⟩ (ih rest hr)

/-! ## Claim theorems: general statements -/

/-- C6.  When the name argument of `remove_child` or `remove_parent`
does not resolve to a reachable term, and when the ancestor argument of
`is_kind_of` does not, the operation reports the failure on the console
and leaves the graph (arena and alias table) completely unchanged. -/
theorem claim_C6 (fuel : Nat) (s : KB) (v : Nat) (n x y : String)
    (hn : traverse fuel s 0 n = some none)
    (hy : traverse fuel s 0 y = some none) :
    removeChildByName fuel s v n = some (s.say itemMissing) ∧
    removeParentByName fuel s v n = some (s.say itemMissing) ∧
    isKindOf fuel s x y = some (s.say (parentAbsent y), none) ∧
    (s.say itemMissing).terms = s.terms ∧
    (s.say itemMissing).aliases = s.aliases ∧
    (s.say (parentAbsent y)).terms = s.terms ∧
    (s.say (parentAbsent y)).aliases = s.aliases := by
  refine ⟨?_, ?_, ?_, rfl, rfl, rfl, rfl⟩
  · unfold removeChildByName; rw [hn]
  · unfold removeParentByName; rw [hn]
  · unfold isKindOf; rw [hy]

/-- C6, witness: in the initial knowledge base the name `nope` is not
found and the removal and query operations only log the failure. -/
theorem claim_C6_witness :
    traverse 3 init 0 "nope" = some none ∧
    removeChildByName 3 init 0 "nope" = some (init.say itemMissing) ∧
    isKindOf 3 init "a" "nada" =
      some (init.say (parentAbsent "nada"), none) :=
  ⟨rfl, (claim_C6 3 init 0 "nope" "a" "nada" rfl rfl).1,
   (claim_C6 3 init 0 "nope" "a" "nada" rfl rfl).2.2.1⟩

/-- C4, amended.  Re-adding an edge that is (still) present in the
graph is a silent no-op: when `x` and `y` resolve to terms and `y`'s
term already has a child whose name equals `x`'s term's name,
`add_kind_of` returns the state unchanged.  (The original claim's
unconditional "twice = once" fails: see the counterexample, where the
second call resolves `x` differently through an alias and diverges.) -/
theorem claim_C4_amended (fuel : Nat) (s : KB) (x y : String) (xi yj : Nat)
    (hx : traverse (fuel + 1) s 0 x = some (some xi))
    (hy : traverse (fuel + 1) s 0 y = some (some yj))
    (hdup : (s.term yj).children.any
      (fun c => (s.term c).name = (s.term xi).name) = true) :
    addKindOf (fuel + 1) s x y = some s := by
  simp only [addKindOf]
  rw [hx]
  dsimp only
  rw [hy]
  dsimp only
  simp only [addChild, hdup, if_true]

/-- C4, witness: re-adding the dog→object edge leaves the state
unchanged. -/
theorem claim_C4_witness :
    traverse 5 c7s1 0 "dog" = some (some 1) ∧
    traverse 5 c7s1 0 "object" = some (some 0) ∧
    (c7s1.term 0).children.any
      (fun c => (c7s1.term c).name = (c7s1.term 1).name) = true ∧
    addKindOf 5 c7s1 "dog" "object" = some c7s1 :=
  ⟨by rfl, by rfl, by rfl,
   claim_C4_amended 4 c7s1 "dog" "object" 1 0 (by rfl) (by rfl) (by rfl)⟩

/-- C10, amended.  Whenever `add_kind_of` actually inserts a new parent
link (both names resolve and neither name guard fires), what it returns
is exactly the result of running `prune_tree` from the distinguished
root node 0 — over the entire reachable graph, not merely the affected
subtree — on the newly linked state.  (The claim's further assertion
that afterwards every reachable term satisfies the specification's
redundancy-elimination condition is refuted by the counterexample.) -/
theorem claim_C10_amended (fuel : Nat) (s : KB) (x y : String)
    (xi yj : Nat)
    (hx : traverse (fuel + 1) s 0 x = some (some xi))
    (hy : traverse (fuel + 1) s 0 y = some (some yj))
    (hc : (s.term yj).children.any
      (fun q => (s.term q).name = (s.term xi).name) = false)
    (hp : (s.term xi).parents.any
      (fun q => (s.term q).name = (s.term yj).name) = false) :
    addKindOf (fuel + 1) s x y =
      pruneTree (fuel + 1) (linkEdge s yj xi) 0 := by
  have e2 : ∀ q, (((s.upd yj
      (fun t => { t with children := t.children ++ [xi] }))).term q).name
      = (s.term q).name := fun q => name_upd s yj _ q (fun _ => rfl)
  have e1 : (((s.upd yj
      (fun t => { t with children := t.children ++ [xi] }))).term xi).parents
      = (s.term xi).parents := parents_upd s yj _ xi (fun _ => rfl)
  simp only [addKindOf]
  rw [hx]
  dsimp only
  rw [hy]
  dsimp only
  simp only [addChild, hc, Bool.false_eq_true, if_false, addParent, e1, e2,
    hp, pruneTree, linkEdge]
  cases pruneGo (fuel + 1)
      ((s.upd yj fun t =>
        { name := t.name, children := t.children ++ [xi],
          parents := t.parents }).upd xi fun t =>
        { name := t.name, children := t.children,
          parents := t.parents ++ [yj] })
      (PruneCall.tree 0) with
  | none => rfl
  | some s₂ => rfl

/-- C10, witness: inserting object under dog takes the link-then-prune
path of the equation (this particular call then diverges inside the
pass — both sides of the equation are `none` at this fuel). -/
theorem claim_C10_witness :
    traverse 5 c7s1 0 "object" = some (some 0) ∧
    traverse 5 c7s1 0 "dog" = some (some 1) ∧
    (c7s1.term 1).children.any
      (fun q => (c7s1.term q).name = (c7s1.term 0).name) = false ∧
    (c7s1.term 0).parents.any
      (fun q => (c7s1.term q).name = (c7s1.term 1).name) = false ∧
    addKindOf 5 c7s1 "object" "dog" = pruneTree 5 (linkEdge c7s1 1 0) 0 :=
  ⟨by rfl, by rfl, by rfl, by rfl,
   claim_C10_amended 4 c7s1 "object" "dog" 0 1 (by rfl) (by rfl) (by rfl)
     (by rfl)⟩

/-- C9, amended.  For an existing edge between parent `p` and child `c`
(with the no-duplicate-edge invariant), `remove_parent(c, n)` where `n`
resolves to `p` unlinks the edge completely — afterwards `p` is not
among `c`'s parents and `c` is not among `p`'s children — whereas
`remove_child(p, m)` where `m` resolves to `c` removes only the
child-side entry and leaves `c`'s parent list untouched. -/
theorem claim_C9_amended (fuel : Nat) (s : KB) (c p : Nat) (n m : String)
    (hn : traverse fuel s 0 n = some (some p))
    (hm : traverse fuel s 0 m = some (some c))
    (hmem : p ∈ (s.term c).parents)
    (nodupP : (s.term c).parents.Nodup)
    (nodupC : (s.term p).children.Nodup) :
    removeParentByName fuel s c n = some (removeParentTerm s c p) ∧
    p ∉ ((removeParentTerm s c p).term c).parents ∧
    c ∉ ((removeParentTerm s c p).term p).children ∧
    removeChildByName fuel s p m = some (removeChildTerm s p c) ∧
    c ∉ ((removeChildTerm s p c).term p).children ∧
    ((removeChildTerm s p c).term c).parents = (s.term c).parents := by
  have hclen : c < s.terms.length := mem_parents_lt s c p hmem
  refine ⟨?_, ?_, ?_, ?_, ?_, ?_⟩
  · unfold removeParentByName; rw [hn]
  · unfold removeParentTerm
    rw [if_pos hmem, term_upd,
      if_pos ⟨rfl, by rw [length_removeChildTerm]; exact hclen⟩,
      removeChildTerm_parents]
    exact nodupP.not_mem_erase
  · unfold removeParentTerm
    rw [if_pos hmem]
    dsimp only
    rw [children_upd (removeChildTerm s p c) c
        (fun t => { t with parents := t.parents.erase p }) p
        (fun t => rfl),
      removeChildTerm_children]
    exact nodupC.not_mem_erase
  · unfold removeChildByName; rw [hm]
  · rw [removeChildTerm_children]
    exact nodupC.not_mem_erase
  · exact removeChildTerm_parents s p c c

/-- C9, witness: removing the object→dog edge through `remove_parent`
on the concrete two-node state. -/
theorem claim_C9_witness :
    traverse 5 c7s1 0 "object" = some (some 0) ∧
    traverse 5 c7s1 0 "dog" = some (some 1) ∧
    0 ∈ (c7s1.term 1).parents ∧
    removeParentByName 5 c7s1 1 "object" =
      some (removeParentTerm c7s1 1 0) :=
  ⟨by rfl, by rfl, by decide,
   (claim_C9_amended 5 c7s1 1 0 "object" "dog" (by rfl) (by rfl)
     (by decide) (by decide) (by decide)).1⟩

/-- C2, amended.  `get_ancestry` produces one chain per direct parent
of the term, in parent order; the chain for a direct parent `p` is
`p`'s name followed by one nested sub-chain for *each* of `p`'s
recorded parents (the full ancestry of `p`), i.e. the chains branch at
every multi-parent ancestor rather than following only the first
recorded parent. -/
theorem claim_C2_amended (fuel : Nat) (s : KB) (v : Nat) (l : ChainList)
    (h : getAncestry (fuel + 1) s v = some l) :
    List.Forall₂ (ChainFor fuel s) (s.term v).parents l.toList :=
  ancList_forall fuel s (s.term v).parents l
    (by rw [← getAncestry_succ]; exact h)

/-- C2, witness: the ancestry of `dog` in `sBranch` is one chain for
its one parent, and that chain carries both of `mammal`'s parents. -/
theorem claim_C2_witness :
    getAncestry 30 sBranch 4 = some branchChain ∧
    List.Forall₂ (ChainFor 29 sBranch) (sBranch.term 4).parents
      branchChain.toList :=
  ⟨by rfl, claim_C2_amended 29 sBranch 4 branchChain (by rfl)⟩

/-- C3, amended.  The rename pass `update_names` is a pure rename: it
never merges nodes — the arena size, the alias table, and every node's
children and parents are left exactly as they were (only names change),
so two distinct reachable terms can afterwards share one canonical
name, as the counterexample shows. -/
theorem claim_C3_amended :
    ∀ (fuel : Nat) (s : KB) (v : Nat) (s' : KB),
      updateNames fuel s v = some s' → SameShape s s' := by
  intro fuel
  induction fuel with
  | zero => intro s v s' h; nomatch h
  | succ f ih =>
    intro s v s' h
    unfold updateNames at h
    have step : ∀ (cs : List Nat) (t u : KB),
        cs.foldl (fun acc c =>
          match acc with
          | none => none
          | some s' => updateNames f s' c) (some t) = some u →
        SameShape t u := by
      intro cs
      induction cs with
      | nil => intro t u h; cases h; exact sameShape_refl t
      | cons c cs ihc =>
        intro t u h
        simp only [List.foldl] at h
        cases hu : updateNames f t c with
        | none => rw [hu] at h; rw [un_foldl_none] at h; nomatch h
        | some w =>
          rw [hu] at h
          exact sameShape_trans (ih t c w hu) (ihc w u h)
    cases hl : s.aliases.lookup (s.term v).name with
    | none =>
      rw [hl] at h
      exact step _ _ _ h
    | some t =>
      rw [hl] at h
      refine sameShape_trans ?_ (step _ _ _ h)
      refine ⟨List.length_set .., rfl, fun i => ?_⟩
      exact ⟨children_upd s v _ i (fun _ => rfl),
             parents_upd s v _ i (fun _ => rfl)⟩

/-- C3, witness: the rename pass that renames the root to `zzz`
preserves the graph shape. -/
theorem claim_C3_witness :
    updateNames 5 ⟨[⟨"object", [], []⟩], [("object", "zzz")], [], []⟩ 0
      = some sC8 ∧
    SameShape ⟨[⟨"object", [], []⟩], [("object", "zzz")], [], []⟩ sC8 :=
  ⟨by rfl,
   claim_C3_amended 5 ⟨[⟨"object", [], []⟩], [("object", "zzz")], [], []⟩
     0 sC8 (by rfl)⟩


theorem shrinks_refl (s : KB) : Shrinks s s :=
  ⟨rfl, rfl, rfl, ⟨[], rfl⟩, fun _ => ⟨rfl, List.Sublist.refl _, List.Sublist.refl _⟩⟩

theorem shrinks_trans {s t u : KB} (h1 : Shrinks s t) (h2 : Shrinks t u) :
    Shrinks s u := by
  obtain ⟨l1, a1, r1, ⟨p1, g1⟩, f1⟩ := h1
  obtain ⟨l2, a2, r2, ⟨p2, g2⟩, f2⟩ := h2
  refine ⟨l2.trans l1, a2.trans a1, r2.trans r1, ⟨p2 ++ p1, ?_⟩, fun i => ?_⟩
  · rw [g2, g1, List.append_assoc]
  · exact ⟨(f2 i).1.trans (f1 i).1,
      (f2 i).2.1.trans (f1 i).2.1,
      (f2 i).2.2.trans (f1 i).2.2⟩

theorem shrinks_say (s : KB) (m : String) : Shrinks s (s.say m) :=
  ⟨rfl, rfl, rfl, ⟨[m], rfl⟩, fun _ => ⟨rfl, List.Sublist.refl _, List.Sublist.refl _⟩⟩

theorem shrinks_removeChildTerm (s : KB) (p c : Nat) :
    Shrinks s (removeChildTerm s p c) := by
  unfold removeChildTerm
  by_cases h : c ∈ (s.term p).children
  · rw [if_pos h]
    refine ⟨List.length_set .., rfl, rfl, ⟨[], rfl⟩, fun i => ?_⟩
    rw [term_upd]
    by_cases hc : i = p ∧ p < s.terms.length
    · rw [if_pos hc]
      exact ⟨by rw [hc.1], by rw [hc.1]; exact List.erase_sublist .., by rw [hc.1]⟩
    · rw [if_neg hc]
      exact ⟨rfl, List.Sublist.refl _, List.Sublist.refl _⟩
  · rw [if_neg h]; exact shrinks_refl s

theorem shrinks_removeParentTerm (s : KB) (v p : Nat) :
    Shrinks s (removeParentTerm s v p) := by
  unfold removeParentTerm
  by_cases h : p ∈ (s.term v).parents
  · rw [if_pos h]
    dsimp only
    refine shrinks_trans (shrinks_removeChildTerm s p v) ?_
    set s₁ := removeChildTerm s p v with hs₁
    refine ⟨List.length_set .., rfl, rfl, ⟨[], rfl⟩, fun i => ?_⟩
    rw [term_upd]
    by_cases hc : i = v ∧ v < s₁.terms.length
    · rw [if_pos hc]
      exact ⟨by rw [hc.1], by rw [hc.1],
        by rw [hc.1]; exact List.erase_sublist ..⟩
    · rw [if_neg hc]
      exact ⟨rfl, List.Sublist.refl _, List.Sublist.refl _⟩
  · rw [if_neg h]; exact shrinks_refl s

theorem shrinks_removeParentByName (fuel : Nat) (s : KB) (v : Nat)
    (n : String) (s' : KB) (h : removeParentByName fuel s v n = some s') :
    Shrinks s s' := by
  unfold removeParentByName at h
  cases ht : traverse fuel s 0 n with
  | none => rw [ht] at h; nomatch h
  | some r =>
    cases r with
    | none => rw [ht] at h; cases h; exact shrinks_say s itemMissing
    | some p => rw [ht] at h; cases h; exact shrinks_removeParentTerm s v p

theorem pruneWalk_shrinks (fuel v : Nat) (p1 : Chain) :
    ∀ (c : Chain) (s s' : KB), pruneWalk fuel v p1 c s = some s' →
      Shrinks s s'
  | .node n .nil, s, s', h => by
    cases h; exact shrinks_refl s
  | .node n (.cons c0 rest), s, s', h => by
    unfold pruneWalk at h
    by_cases hm : chainMem p1 (.cons c0 rest)
    · rw [if_pos hm] at h
      cases hr : removeParentByName fuel s v p1.hd with
      | none => rw [hr] at h; nomatch h
      | some s₁ =>
        rw [hr] at h
        exact shrinks_trans (shrinks_removeParentByName fuel s v p1.hd s₁ hr)
          (pruneWalk_shrinks fuel v p1 c0 s₁ s' h)
    · rw [if_neg hm] at h
      exact pruneWalk_shrinks fuel v p1 c0 s s' h

theorem pruneInner_shrinks (fuel v : Nat) (p1 : Chain) :
    ∀ (l : ChainList) (s s' : KB), pruneInner fuel v p1 l s = some s' →
      Shrinks s s'
  | .nil, s, s', h => by cases h; exact shrinks_refl s
  | .cons p2 rest, s, s', h => by
    unfold pruneInner at h
    cases hw : pruneWalk fuel v p1 p2 s with
    | none => rw [hw] at h; nomatch h
    | some s₁ =>
      rw [hw] at h
      exact shrinks_trans (pruneWalk_shrinks fuel v p1 p2 s s₁ hw)
        (pruneInner_shrinks fuel v p1 rest s₁ s' h)

theorem pruneOuter_shrinks (fuel v : Nat) :
    ∀ (l : ChainList) (s s' : KB), pruneOuter fuel v l s = some s' →
      Shrinks s s'
  | .nil, s, s', h => by cases h; exact shrinks_refl s
  | .cons p1 rest, s, s', h => by
    unfold pruneOuter at h
    cases ha : getAncestry fuel s v with
    | none => rw [ha] at h; nomatch h
    | some anc2 =>
      rw [ha] at h
      dsimp only at h
      cases hi : pruneInner fuel v p1 anc2 s with
      | none => rw [hi] at h; nomatch h
      | some s₁ =>
        rw [hi] at h
        dsimp only at h
        exact shrinks_trans (pruneInner_shrinks fuel v p1 anc2 s s₁ hi)
          (pruneOuter_shrinks fuel v rest s₁ s' h)

theorem pruneGo_shrinks :
    ∀ (fuel : Nat) (s : KB) (pc : PruneCall) (s' : KB),
      pruneGo fuel s pc = some s' → Shrinks s s'
  | 0, _, _, _, h => by nomatch h
  | fuel + 1, s, .tree v, s', h => by
    unfold pruneGo at h
    cases ha : getAncestry (fuel + 1) s v with
    | none => rw [ha] at h; nomatch h
    | some anc =>
      rw [ha] at h
      dsimp only at h
      cases ho : pruneOuter (fuel + 1) v anc s with
      | none => rw [ho] at h; nomatch h
      | some s₁ =>
        rw [ho] at h
        dsimp only at h
        exact shrinks_trans (pruneOuter_shrinks (fuel + 1) v anc s s₁ ho)
          (pruneGo_shrinks fuel s₁ (.kids v 0) s' h)
  | fuel + 1, s, .kids v i, s', h => by
    unfold pruneGo at h
    by_cases hlt : i < ((s.term v).children).length
    · rw [dif_pos hlt] at h
      cases hp : pruneGo fuel s (.tree (((s.term v).children).get ⟨i, hlt⟩)) with
      | none => rw [hp] at h; nomatch h
      | some s₁ =>
        rw [hp] at h
        dsimp only at h
        exact shrinks_trans (pruneGo_shrinks fuel s _ s₁ hp)
          (pruneGo_shrinks fuel s₁ (.kids v (i + 1)) s' h)
    · rw [dif_neg hlt] at h
      cases h
      exact shrinks_refl s

mutual

theorem chainBeq_eq : ∀ (a b : Chain), chainBeq a b = true → a = b
  | .node x xs, .node y ys, h => by
    unfold chainBeq at h
    simp only [Bool.and_eq_true] at h
    obtain ⟨h1, h2⟩ := h
    have hx : x = y := by
      have := of_decide_eq_true h1
      exact this
    rw [hx, chainListBeq_eq xs ys h2]

theorem chainListBeq_eq : ∀ (a b : ChainList), chainListBeq a b = true → a = b
  | .nil, .nil, _ => rfl
  | .cons x xs, .cons y ys, h => by
    unfold chainListBeq at h
    simp only [Bool.and_eq_true] at h
    obtain ⟨h1, h2⟩ := h
    rw [chainBeq_eq x y h1, chainListBeq_eq xs ys h2]
  | .nil, .cons y ys, h => by nomatch h
  | .cons x xs, .nil, h => by nomatch h

end

theorem chainMem_size : ∀ (x : Chain) (l : ChainList),
    chainMem x l = true → chainSize x ≤ chainListSize l
  | x, .nil, h => by nomatch h
  | x, .cons y ys, h => by
    unfold chainMem at h
    simp only [Bool.or_eq_true] at h
    rcases h with h1 | h2
    · rw [chainBeq_eq x y h1]
      unfold chainListSize
      omega
    · have := chainMem_size x ys h2
      unfold chainListSize
      omega

theorem chainSize_node (n : String) (l : ChainList) :
    chainSize (.node n l) = chainListSize l + 1 := rfl

theorem chainListSize_cons (c : Chain) (cs : ChainList) :
    chainListSize (.cons c cs) = chainSize c + chainListSize cs + 1 := rfl

theorem pruneWalk_self (fuel v : Nat) (p1 : Chain) :
    ∀ (d : Chain) (s : KB), chainSize d ≤ chainSize p1 →
      pruneWalk fuel v p1 d s = some s
  | .node n .nil, s, _ => rfl
  | .node n (.cons c0 rest), s, hle => by
    rw [chainSize_node, chainListSize_cons] at hle
    by_cases hm : chainMem p1 (.cons c0 rest) = true
    · exfalso
      have := chainMem_size p1 _ hm
      rw [chainListSize_cons] at this
      omega
    · unfold pruneWalk
      rw [if_neg hm]
      dsimp only
      exact pruneWalk_self fuel v p1 c0 s (by omega)

theorem children_removeChildTerm (s : KB) (q v i : Nat) :
    ((removeChildTerm s q v).term i).children =
      if i = q then (s.term i).children.erase v
      else (s.term i).children := by
  by_cases h : i = q
  · subst h; rw [if_pos rfl]; exact removeChildTerm_children s i v
  · rw [if_neg h, removeChildTerm_term_ne s q v i h]

theorem edgeJ_say (s : KB) (m : String) (c p : Nat) (hJ : EdgeJ s c p) :
    EdgeJ (s.say m) c p := hJ

theorem edgeJ_removeParentTerm (s : KB) (v q c p : Nat) (hv : v ≠ c)
    (hJ : EdgeJ s c p) : EdgeJ (removeParentTerm s v q) c p := by
  obtain ⟨h1, h2⟩ := hJ
  unfold removeParentTerm
  by_cases hm : q ∈ (s.term v).parents
  · rw [if_pos hm]
    dsimp only
    constructor
    · rw [term_upd, if_neg (fun hc => hv hc.1.symm),
        removeChildTerm_parents]
      exact h1
    · rw [children_upd (removeChildTerm s q v) v
        (fun t => { t with parents := t.parents.erase q }) p
        (fun t => rfl),
        children_removeChildTerm]
      by_cases hpq : p = q
      · rw [if_pos hpq]
        exact (List.mem_erase_of_ne (fun hcv => hv hcv.symm)).mpr h2
      · rw [if_neg hpq]; exact h2
  · rw [if_neg hm]; exact ⟨h1, h2⟩

theorem edgeJ_removeParentByName (fuel : Nat) (s : KB) (v : Nat)
    (n : String) (s' : KB) (c p : Nat) (hv : v ≠ c)
    (h : removeParentByName fuel s v n = some s') (hJ : EdgeJ s c p) :
    EdgeJ s' c p := by
  unfold removeParentByName at h
  cases ht : traverse fuel s 0 n with
  | none => rw [ht] at h; nomatch h
  | some r =>
    cases r with
    | none => rw [ht] at h; cases h; exact edgeJ_say s itemMissing c p hJ
    | some q => rw [ht] at h; cases h; exact edgeJ_removeParentTerm s v q c p hv hJ

theorem pruneWalk_keepJ (fuel v : Nat) (p1 : Chain) (c p : Nat)
    (hv : v ≠ c) :
    ∀ (d : Chain) (s s' : KB), pruneWalk fuel v p1 d s = some s' →
      EdgeJ s c p → EdgeJ s' c p
  | .node n .nil, s, s', h, hJ => by cases h; exact hJ
  | .node n (.cons c0 rest), s, s', h, hJ => by
    unfold pruneWalk at h
    by_cases hm : chainMem p1 (.cons c0 rest) = true
    · rw [if_pos hm] at h
      cases hr : removeParentByName fuel s v p1.hd with
      | none => rw [hr] at h; nomatch h
      | some s₁ =>
        rw [hr] at h
        dsimp only at h
        exact pruneWalk_keepJ fuel v p1 c p hv c0 s₁ s' h
          (edgeJ_removeParentByName fuel s v p1.hd s₁ c p hv hr hJ)
    · rw [if_neg hm] at h
      dsimp only at h
      exact pruneWalk_keepJ fuel v p1 c p hv c0 s s' h hJ

theorem pruneInner_keepJ (fuel v : Nat) (p1 : Chain) (c p : Nat)
    (hv : v ≠ c) :
    ∀ (l : ChainList) (s s' : KB), pruneInner fuel v p1 l s = some s' →
      EdgeJ s c p → EdgeJ s' c p
  | .nil, s, s', h, hJ => by cases h; exact hJ
  | .cons p2 rest, s, s', h, hJ => by
    unfold pruneInner at h
    cases hw : pruneWalk fuel v p1 p2 s with
    | none => rw [hw] at h; nomatch h
    | some s₁ =>
      rw [hw] at h
      dsimp only at h
      exact pruneInner_keepJ fuel v p1 c p hv rest s₁ s' h
        (pruneWalk_keepJ fuel v p1 c p hv p2 s s₁ hw hJ)

theorem pruneOuter_keepJ (fuel v : Nat) (c p : Nat) (hv : v ≠ c) :
    ∀ (l : ChainList) (s s' : KB), pruneOuter fuel v l s = some s' →
      EdgeJ s c p → EdgeJ s' c p
  | .nil, s, s', h, hJ => by cases h; exact hJ
  | .cons p1 rest, s, s', h, hJ => by
    unfold pruneOuter at h
    cases ha : getAncestry fuel s v with
    | none => rw [ha] at h; nomatch h
    | some anc2 =>
      rw [ha] at h
      dsimp only at h
      cases hi : pruneInner fuel v p1 anc2 s with
      | none => rw [hi] at h; nomatch h
      | some s₁ =>
        rw [hi] at h
        dsimp only at h
        exact pruneOuter_keepJ fuel v c p hv rest s₁ s' h
          (pruneInner_keepJ fuel v p1 c p hv anc2 s s₁ hi hJ)

theorem pruneGo_keepJ (c p : Nat) :
    ∀ (fuel : Nat) (s : KB) (pc : PruneCall) (s' : KB),
      pruneGo fuel s pc = some s' → EdgeJ s c p → EdgeJ s' c p
  | 0, _, _, _, h, _ => by nomatch h
  | fuel + 1, s, .tree v, s', h, hJ => by
    unfold pruneGo at h
    by_cases hv : v = c
    · subst hv
      -- the ancestry of the singleton-parent node v is one chain, and
      -- walking a chain against itself removes nothing
      cases hap : getAncestry fuel s p with
      | none =>
        rw [getAncestry_succ, hJ.1] at h
        unfold ancList at h
        simp only [List.foldr] at h
        rw [hap] at h
        nomatch h
      | some subs =>
        have hanc : getAncestry (fuel + 1) s v = some
            (.cons (.node (s.term p).name subs) .nil) := by
          rw [getAncestry_succ, hJ.1]
          unfold ancList
          simp only [List.foldr]
          rw [hap]
        rw [hanc] at h
        dsimp only at h
        have hw : pruneInner (fuel + 1) v (.node (s.term p).name subs)
            (.cons (.node (s.term p).name subs) .nil) s = some s := by
          unfold pruneInner
          rw [pruneWalk_self (fuel + 1) v _ _ s (Nat.le_refl _)]
          rfl
        have ho : pruneOuter (fuel + 1) v
            (.cons (.node (s.term p).name subs) .nil) s = some s := by
          unfold pruneOuter
          rw [hanc]
          dsimp only
          rw [hw]
          rfl
        rw [ho] at h
        dsimp only at h
        exact pruneGo_keepJ v p fuel s (.kids v 0) s' h hJ
    · cases ha : getAncestry (fuel + 1) s v with
      | none => rw [ha] at h; nomatch h
      | some anc =>
        rw [ha] at h
        dsimp only at h
        cases ho : pruneOuter (fuel + 1) v anc s with
        | none => rw [ho] at h; nomatch h
        | some s₁ =>
          rw [ho] at h
          dsimp only at h
          exact pruneGo_keepJ c p fuel s₁ (.kids v 0) s' h
            (pruneOuter_keepJ (fuel + 1) v c p hv anc s s₁ ho hJ)
  | fuel + 1, s, .kids v i, s', h, hJ => by
    unfold pruneGo at h
    by_cases hlt : i < ((s.term v).children).length
    · rw [dif_pos hlt] at h
      cases hp : pruneGo fuel s
          (.tree (((s.term v).children).get ⟨i, hlt⟩)) with
      | none => rw [hp] at h; nomatch h
      | some s₁ =>
        rw [hp] at h
        dsimp only at h
        exact pruneGo_keepJ c p fuel s₁ (.kids v (i + 1)) s' h
          (pruneGo_keepJ c p fuel s _ s₁ hp hJ)
    · rw [dif_neg hlt] at h
      cases h
      exact hJ

theorem traverse_rootless (f : Nat) (s : KB) (n : String)
    (hch : (s.term 0).children = [])
    (hne : (s.term 0).name ≠ s.resolve n) :
    traverse (f + 1) s 0 n = some none := by
  unfold traverse
  rw [if_neg hne, hch]
  rfl

theorem c5Inv_resolve (s : KB) (hI : C5Inv s) :
    s.resolve "object" = "zzz" ∧ s.resolve "dog" = "dog" ∧
    s.resolve "cat" = "cat" := by
  unfold KB.resolve
  rw [hI.1]
  exact ⟨rfl, rfl, rfl⟩

theorem c5Inv_alloc (s : KB) (n : String) (hI : C5Inv s) :
    C5Inv (s.alloc n) := by
  obtain ⟨h1, h2, h3, h4⟩ := hI
  refine ⟨h1, ?_, ?_, ?_⟩
  · rw [term_alloc, if_neg (by omega)]; exact h2
  · rw [term_alloc, if_neg (by omega)]; exact h3
  · unfold KB.alloc
    simp only [List.length_append, List.length_cons, List.length_nil]
    omega

theorem c5Inv_say (s : KB) (m : String) (hI : C5Inv s) :
    C5Inv (s.say m) := hI

theorem c5_loop : ∀ (f : Nat) (s : KB), C5Inv s →
    addKindOf f s "object" "object" = none := by
  intro f
  induction f with
  | zero => intro s _; rfl
  | succ g ih =>
    intro s hI
    have hne : (s.term 0).name ≠ s.resolve "object" := by
      rw [hI.2.2.1, (c5Inv_resolve s hI).1]
      intro h; nomatch h
    have ht : traverse (g + 1) s 0 "object" = some none :=
      traverse_rootless g s "object" hI.2.1 hne
    have hI₁ : C5Inv (s.alloc "object") := c5Inv_alloc s "object" hI
    have hne₁ : ((s.alloc "object").term 0).name ≠
        (s.alloc "object").resolve "object" := by
      rw [hI₁.2.2.1, (c5Inv_resolve _ hI₁).1]
      intro h; nomatch h
    have ht₁ : traverse (g + 1) (s.alloc "object") 0 "object" = some none :=
      traverse_rootless g _ "object" hI₁.2.1 hne₁
    simp only [addKindOf]
    rw [ht]
    dsimp only
    rw [ht₁]
    dsimp only
    rw [ih ((s.alloc "object").say (parentMissing "object"))
      (c5Inv_say _ _ hI₁)]

theorem c5_diverges : addDiverges sC5 "dog" "cat" := by
  intro fuel
  match fuel with
  | 0 => rfl
  | f + 1 =>
    have hI : C5Inv sC5 := ⟨rfl, rfl, rfl, by decide⟩
    have ht : traverse (f + 1) sC5 0 "dog" = some none :=
      traverse_rootless f sC5 "dog" hI.2.1 (by rw [hI.2.2.1, (c5Inv_resolve _ hI).2.1]; intro h; nomatch h)
    have hI₁ : C5Inv (sC5.alloc "dog") := c5Inv_alloc sC5 "dog" hI
    have ht₁ : traverse (f + 1) (sC5.alloc "dog") 0 "cat" = some none :=
      traverse_rootless f _ "cat" hI₁.2.1 (by rw [hI₁.2.2.1, (c5Inv_resolve _ hI₁).2.2]; intro h; nomatch h)
    simp only [addKindOf]
    rw [ht]
    dsimp only
    rw [ht₁]
    dsimp only
    set s₂ := (sC5.alloc "dog").say (parentMissing "cat") with hs₂
    have hI₂ : C5Inv s₂ := c5Inv_say _ _ hI₁
    match f, ht, ht₁ with
    | 0, _, _ => rfl
    | g + 1, _, _ =>
      have ht₂ : traverse (g + 1) s₂ 0 "cat" = some none :=
        traverse_rootless g s₂ "cat" hI₂.2.1 (by rw [hI₂.2.2.1, (c5Inv_resolve _ hI₂).2.2]; intro h; nomatch h)
      have hI₃ : C5Inv (s₂.alloc "cat") := c5Inv_alloc s₂ "cat" hI₂
      have ht₃ : traverse (g + 1) (s₂.alloc "cat") 0 "object" = some none :=
        traverse_rootless g _ "object" hI₃.2.1 (by rw [hI₃.2.2.1, (c5Inv_resolve _ hI₃).1]; intro h; nomatch h)
      simp only [addKindOf]
      rw [ht₂]
      dsimp only
      rw [ht₃]
      dsimp only
      rw [c5_loop g ((s₂.alloc "cat").say (parentMissing "object"))
        (c5Inv_say _ _ hI₃)]

/-- C5, counterexample.  In the state reached by the two public alias
declarations `object is an alias for zzz` and `zzz is an alias for
www`, the call `add_relationship(dog, cat)` — whose parent `cat` is
unknown — does *not* recover: `traverse("object")` resolves one hop to
`zzz`, which no longer names any term, so the auto-creation recursion
`add_kind_of(object, object)` calls itself forever, allocating
unreachable stub terms; the operation never returns. -/
theorem claim_C5_counterexample :
    (match declareAlias 20 init "object" "zzz" with
     | none => none
     | some s1 => declareAlias 20 s1 "zzz" "www") = some sC5 ∧
    addDiverges sC5 "dog" "cat" :=
  ⟨by rfl, c5_diverges⟩

theorem resolve_nil (s : KB) (n : String) (h : s.aliases = []) :
    s.resolve n = n := by
  unfold KB.resolve
  rw [h]
  rfl

theorem travList_found (fuel : Nat) (s : KB) (n : String) (r : Nat) :
    ∀ (cs : List Nat) (a : Option (Option Nat)),
      cs.foldl (fun acc c =>
        match acc with
        | none => none
        | some (some r) => some (some r)
        | some none => traverse fuel s c n) a = some (some r) →
      a = some (some r) ∨ ∃ c ∈ cs, traverse fuel s c n = some (some r) := by
  intro cs
  induction cs with
  | nil => intro a h; exact Or.inl h
  | cons c cs ih =>
    intro a h
    simp only [List.foldl] at h
    rcases ih _ h with h1 | ⟨c', hc', h2⟩
    · match a, h1 with
      | some (some r₀), h1 => exact Or.inl h1
      | some none, h1 => exact Or.inr ⟨c, List.mem_cons_self c cs, h1⟩
    · exact Or.inr ⟨c', List.mem_cons_of_mem c hc', h2⟩

theorem traverse_found : ∀ (fuel : Nat) (s : KB) (v : Nat) (n : String)
    (r : Nat), s.aliases = [] → traverse fuel s v n = some (some r) →
    (s.term r).name = n
  | 0, _, _, _, _, _, h => by nomatch h
  | fuel + 1, s, v, n, r, halias, h => by
    unfold traverse at h
    rw [resolve_nil s n halias] at h
    by_cases hv : (s.term v).name = n
    · rw [if_pos hv] at h
      cases h
      exact hv
    · rw [if_neg hv] at h
      rcases travList_found fuel s n r _ _ h with h1 | ⟨c, _, h2⟩
      · nomatch h1
      · exact traverse_found fuel s c n r halias h2

theorem traverse_hit (f : Nat) (s : KB) (v : Nat) (nm : String)
    (h : (s.term v).name = s.resolve nm) :
    traverse (f + 1) s v nm = some (some v) := by
  unfold traverse
  rw [if_pos h]

theorem length_upd (s : KB) (p : Nat) (f : Term → Term) :
    (s.upd p f).terms.length = s.terms.length := by
  unfold KB.upd
  exact List.length_set ..

/-- C5, amended.  When no aliases are registered, the root is named
`object`, the parent name `y` matches no node at all and the child name
`x` matches none either, `add_kind_of x y` that completes *does*
recover: it warns that `y` is missing, creates `y`'s node (index
`n + 1`, where `n` is the old arena size) underneath the root, and then
hangs the fresh `x` node (index `n`) below it, each new node carrying
exactly its one intended parent.  (The original claim's words hold only
in this alias-free situation: the C5 counterexample shows that with
aliases in play the recursion never terminates.) -/
theorem claim_C5_amended (fuel : Nat) (s : KB) (x y : String) (s' : KB)
    (halias : s.aliases = [])
    (hroot : (s.term 0).name = "object")
    (hx : ∀ i, (s.term i).name ≠ x)
    (hy : ∀ i, (s.term i).name ≠ y)
    (hxy : x ≠ y)
    (hcid : ∀ c ∈ (s.term 0).children, c < s.terms.length)
    (h : addKindOf (fuel + 1) s x y = some s') :
    parentMissing y ∈ s'.log ∧
    (s'.term (s.terms.length + 1)).name = y ∧
    (s'.term (s.terms.length + 1)).parents = [0] ∧
    (s.terms.length + 1) ∈ (s'.term 0).children ∧
    (s'.term s.terms.length).name = x ∧
    (s'.term s.terms.length).parents = [s.terms.length + 1] ∧
    s.terms.length ∈ (s'.term (s.terms.length + 1)).children := by
  have hn : 0 < s.terms.length := by
    by_contra h0
    have hd : s.term 0 = ⟨"", [], []⟩ := by
      unfold KB.term
      exact List.getD_eq_default _ _ (Nat.le_of_not_lt h0)
    rw [hd] at hroot
    exact absurd hroot (by decide)
  -- step 1: x is not found, so a fresh node is allocated at index n
  cases ht1 : traverse (fuel + 1) s 0 x with
  | none =>
    simp only [addKindOf] at h
    rw [ht1] at h
    nomatch h
  | some r1 =>
    cases r1 with
    | some ri => exact absurd (traverse_found _ _ _ _ _ halias ht1) (hx ri)
    | none =>
    simp only [addKindOf] at h
    rw [ht1] at h
    dsimp only at h
    have e₁ : ∀ i, (s.alloc x).term i =
        if i = s.terms.length then ⟨x, [], []⟩ else s.term i :=
      term_alloc s x
    have a₁ : (s.alloc x).aliases = [] := halias
    have nm₁ : ∀ i, ((s.alloc x).term i).name ≠ y := by
      intro i
      rw [e₁]
      by_cases hi : i = s.terms.length
      · rw [if_pos hi]; exact hxy
      · rw [if_neg hi]; exact hy i
    -- step 2: y is not found either
    cases ht2 : traverse (fuel + 1) (s.alloc x) 0 y with
    | none => rw [ht2] at h; nomatch h
    | some r2 =>
      cases r2 with
      | some rj => exact absurd (traverse_found _ _ _ _ _ a₁ ht2) (nm₁ rj)
      | none =>
      rw [ht2] at h
      dsimp only at h
      -- step 3: the recursive auto-creation call
      cases fuel with
      | zero => rw [show addKindOf 0 ((s.alloc x).say (parentMissing y)) y
          "object" = none from rfl] at h; nomatch h
      | succ g =>
      cases hin : addKindOf (g + 1) ((s.alloc x).say (parentMissing y)) y
          "object" with
      | none => rw [hin] at h; nomatch h
      | some sr =>
      rw [hin] at h
      dsimp only at h
      -- analyse the inner call
      have a₂ : ((s.alloc x).say (parentMissing y)).aliases = [] := a₁
      have nm₂ : ∀ i, (((s.alloc x).say (parentMissing y)).term i).name ≠ y :=
        nm₁
      have l₂ : ((s.alloc x).say (parentMissing y)).terms.length =
          s.terms.length + 1 := by
        show (s.alloc x).terms.length = _
        unfold KB.alloc
        simp
      simp only [addKindOf] at hin
      cases ht3 : traverse (g + 1) ((s.alloc x).say (parentMissing y)) 0 y with
      | none => rw [ht3] at hin; nomatch hin
      | some r3 =>
      cases r3 with
      | some rk => exact absurd (traverse_found _ _ _ _ _ a₂ ht3) (nm₂ rk)
      | none =>
      rw [ht3] at hin
      dsimp only at hin
      rw [l₂] at hin
      -- the y-node sits at index n+1; the lookup of "object" hits the root
      have t0₂ : ((s.alloc x).say (parentMissing y)).term 0 = s.term 0 := by
        show (s.alloc x).term 0 = s.term 0
        rw [e₁, if_neg (by omega)]
      have e₄ : ∀ i, (((s.alloc x).say (parentMissing y)).alloc y).term i =
          if i = s.terms.length + 1 then ⟨y, [], []⟩
          else (s.alloc x).term i := by
        intro i
        rw [term_alloc, l₂]
        rfl
      have a₄ : (((s.alloc x).say (parentMissing y)).alloc y).aliases = [] :=
        a₂
      have t0₄ : (((s.alloc x).say (parentMissing y)).alloc y).term 0 =
          s.term 0 := by
        rw [e₄, if_neg (by omega), e₁, if_neg (by omega)]
      have ht4 : traverse (g + 1)
          (((s.alloc x).say (parentMissing y)).alloc y) 0 "object" =
          some (some 0) := by
        cases g with
        | zero =>
          exact traverse_hit 0 _ 0 "object"
            (by rw [t0₄, hroot, resolve_nil _ _ a₄])
        | succ g' =>
          exact traverse_hit (g' + 1) _ 0 "object"
            (by rw [t0₄, hroot, resolve_nil _ _ a₄])
      rw [ht4] at hin
      dsimp only at hin
      -- the child-name guard on the root is clear, so the y-node is linked
      have tyi₄ : (((s.alloc x).say (parentMissing y)).alloc y).term
          (s.terms.length + 1) = ⟨y, [], []⟩ := by
        rw [e₄, if_pos rfl]
      have hg₁ : ((((s.alloc x).say (parentMissing y)).alloc y).term
            0).children.any
          (fun q => ((((s.alloc x).say (parentMissing y)).alloc y).term
            q).name =
            ((((s.alloc x).say (parentMissing y)).alloc y).term
              (s.terms.length + 1)).name) = false := by
        rw [List.any_eq_false]
        intro q hq
        rw [t0₄] at hq
        have hqlt := hcid q hq
        rw [tyi₄, e₄, if_neg (by omega), e₁, if_neg (by omega)]
        simp only [decide_eq_true_eq]
        exact hy q
      simp only [addChild] at hin
      rw [if_neg (by rw [hg₁]; exact Bool.false_ne_true)] at hin
      -- the fresh y-node has no parents, so the parent guard is clear too
      have l₄ : (((s.alloc x).say (parentMissing y)).alloc y).terms.length =
          s.terms.length + 2 := by
        show (((s.alloc x).say (parentMissing y)).terms ++ _).length = _
        rw [List.length_append, l₂]
        rfl
      have tyi₅ : (((((s.alloc x).say (parentMissing y)).alloc y).upd 0
          (fun t => { t with children := t.children ++
            [s.terms.length + 1] })).term (s.terms.length + 1)) =
          ⟨y, [], []⟩ := by
        rw [term_upd, if_neg (by rintro ⟨h1, _⟩; omega)]
        exact tyi₄
      simp only [addParent] at hin
      rw [if_neg (by rw [tyi₅]; exact fun hc => nomatch hc)] at hin
      dsimp only [pruneTree] at hin
      cases hpr : pruneGo (g + 1)
          (((((s.alloc x).say (parentMissing y)).alloc y).upd 0 fun t =>
            { name := t.name,
              children := t.children ++ [s.terms.length + 1],
              parents := t.parents }).upd (s.terms.length + 1) fun t =>
            { name := t.name, children := t.children,
              parents := t.parents ++ [0] })
          (.tree 0) with
      | none => rw [hpr] at hin; nomatch hin
      | some s₇ =>
      rw [hpr] at hin
      dsimp only at hin
      cases hin
      -- the freshly created y-node (index n+1) hangs under the root with
      -- exactly one parent, and survives the pass
      have J₆ : EdgeJ
          (((((s.alloc x).say (parentMissing y)).alloc y).upd 0 fun t =>
            { name := t.name,
              children := t.children ++ [s.terms.length + 1],
              parents := t.parents }).upd (s.terms.length + 1) fun t =>
            { name := t.name, children := t.children,
              parents := t.parents ++ [0] })
          (s.terms.length + 1) 0 := by
        constructor
        · rw [term_upd, if_pos ⟨rfl, by
            show s.terms.length + 1 <
              ((((s.alloc x).say (parentMissing y)).alloc y).upd 0 _).terms.length
            unfold KB.upd
            rw [List.length_set, l₄]
            omega⟩]
          show (_ : Term).parents ++ [0] = [0]
          rw [tyi₅]
          rfl
        · rw [children_upd
            ((((s.alloc x).say (parentMissing y)).alloc y).upd 0 fun t =>
              { name := t.name,
                children := t.children ++ [s.terms.length + 1],
                parents := t.parents })
            (s.terms.length + 1)
            (fun t =>
              { name := t.name, children := t.children,
                parents := t.parents ++ [0] })
            0 (fun t => rfl),
            term_upd, if_pos ⟨rfl, by rw [l₄]; omega⟩]
          show (s.terms.length + 1) ∈
            (_ : Term).children ++ [s.terms.length + 1]
          exact List.mem_append_right _ (by simp)
      have J₇ := pruneGo_keepJ (s.terms.length + 1) 0 (g + 1) _ (.tree 0) sr
        hpr J₆
      have Sh₇ := pruneGo_shrinks (g + 1) _ (.tree 0) sr hpr
      -- names and shapes of the pre-prune state
      have l₆ : (((((s.alloc x).say (parentMissing y)).alloc y).upd 0 fun t =>
            { t with children := t.children ++ [s.terms.length + 1] }).upd
            (s.terms.length + 1) fun t =>
            { t with parents := t.parents ++ [0] }).terms.length =
          s.terms.length + 2 :=
        (length_upd _ _ _).trans ((length_upd _ _ _).trans l₄)
      have nm₆ : ∀ i, ((((((s.alloc x).say (parentMissing y)).alloc y).upd 0
            fun t => { t with children := t.children ++ [s.terms.length + 1]
            }).upd (s.terms.length + 1) fun t =>
            { t with parents := t.parents ++ [0] }).term i).name =
          (if i = s.terms.length + 1 then y
           else if i = s.terms.length then x else (s.term i).name) := by
        intro i
        rw [name_upd
            ((((s.alloc x).say (parentMissing y)).alloc y).upd 0 fun t =>
              { t with children := t.children ++ [s.terms.length + 1] })
            (s.terms.length + 1)
            (fun t => { t with parents := t.parents ++ [0] })
            i (fun t => rfl),
          name_upd (((s.alloc x).say (parentMissing y)).alloc y) 0
            (fun t => { t with children := t.children ++ [s.terms.length + 1] })
            i (fun t => rfl),
          e₄, e₁]
        by_cases h1 : i = s.terms.length + 1
        · rw [if_pos h1, if_pos h1]
        · rw [if_neg h1, if_neg h1]
          by_cases h2 : i = s.terms.length
          · rw [if_pos h2, if_pos h2]
          · rw [if_neg h2, if_neg h2]
      have c₆ : ((((((s.alloc x).say (parentMissing y)).alloc y).upd 0 fun t =>
            { t with children := t.children ++ [s.terms.length + 1] }).upd
            (s.terms.length + 1) fun t =>
            { t with parents := t.parents ++ [0] }).term
            (s.terms.length + 1)).children = [] := by
        rw [term_upd, if_pos ⟨rfl, by rw [length_upd, l₄]; omega⟩, tyi₅]
      have p₆n : ((((((s.alloc x).say (parentMissing y)).alloc y).upd 0
            fun t => { t with children := t.children ++ [s.terms.length + 1]
            }).upd (s.terms.length + 1) fun t =>
            { t with parents := t.parents ++ [0] }).term
            s.terms.length).parents = [] := by
        rw [term_upd, if_neg (by rintro ⟨h1, h2⟩; omega),
          term_upd, if_neg (by rintro ⟨h1, h2⟩; omega)]
        rw [e₄, if_neg (by omega), e₁, if_pos rfl]
      obtain ⟨lr, ar, rr, ⟨pre₇, logr⟩, fr⟩ := Sh₇
      have lsr : sr.terms.length = s.terms.length + 2 := lr.trans l₆
      have asr : sr.aliases = [] := ar.trans a₄
      have nmr : ∀ i, (sr.term i).name =
          (if i = s.terms.length + 1 then y
           else if i = s.terms.length then x else (s.term i).name) :=
        fun i => ((fr i).1).trans (nm₆ i)
      have psr : (sr.term (s.terms.length + 1)).parents = [0] := J₇.1
      have msr : (s.terms.length + 1) ∈ (sr.term 0).children := J₇.2
      have psrn : (sr.term s.terms.length).parents = [] := by
        have hsub := (fr s.terms.length).2.2
        rw [p₆n] at hsub
        exact List.sublist_nil.mp hsub
      have csr : (sr.term (s.terms.length + 1)).children = [] := by
        have hsub := (fr (s.terms.length + 1)).2.1
        rw [c₆] at hsub
        exact List.sublist_nil.mp hsub
      -- the second lookup of y lands on the freshly created node n+1
      cases ht5 : traverse (g + 1 + 1) sr 0 y with
      | none => rw [ht5] at h; nomatch h
      | some r5 =>
      cases r5 with
      | none => rw [ht5] at h; nomatch h
      | some j =>
      rw [ht5] at h
      dsimp only at h
      have hj : j = s.terms.length + 1 := by
        have hname := traverse_found _ _ _ _ _ asr ht5
        rw [nmr j] at hname
        by_cases h1 : j = s.terms.length + 1
        · exact h1
        · rw [if_neg h1] at hname
          by_cases h2 : j = s.terms.length
          · rw [if_pos h2] at hname; exact absurd hname hxy
          · rw [if_neg h2] at hname; exact absurd hname (hy j)
      subst hj
      -- the second linking pass: both guards are clear again
      have hg₂ : ((sr.term (s.terms.length + 1)).children.any
          (fun q => (sr.term q).name = (sr.term s.terms.length).name))
          = false := by
        rw [csr]
        rfl
      simp only [addChild] at h
      rw [if_neg (by rw [hg₂]; exact Bool.false_ne_true)] at h
      have p₁n : ((sr.upd (s.terms.length + 1) fun t =>
          { t with children := t.children ++ [s.terms.length] }).term
          s.terms.length).parents = [] := by
        rw [term_upd, if_neg (by rintro ⟨h1, h2⟩; omega)]
        exact psrn
      have hg₃ : (((sr.upd (s.terms.length + 1) fun t =>
          { t with children := t.children ++ [s.terms.length] }).term
            s.terms.length).parents.any
          (fun q => ((sr.upd (s.terms.length + 1) fun t =>
            { t with children := t.children ++ [s.terms.length] }).term
              q).name = ((sr.upd (s.terms.length + 1) fun t =>
            { t with children := t.children ++ [s.terms.length] }).term
              (s.terms.length + 1)).name)) = false := by
        rw [p₁n]
        rfl
      simp only [addParent] at h
      rw [if_neg (by rw [hg₃]; exact Bool.false_ne_true)] at h
      dsimp only [pruneTree] at h
      -- the final pruning pass keeps both fresh single-parent edges
      cases hpf : pruneGo (g + 1 + 1)
          ((sr.upd (s.terms.length + 1) fun t =>
            { t with children := t.children ++ [s.terms.length] }).upd
            s.terms.length fun t =>
            { t with parents := t.parents ++ [s.terms.length + 1] })
          (.tree 0) with
      | none => rw [hpf] at h; nomatch h
      | some s₉ =>
      rw [hpf] at h
      dsimp only at h
      cases h
      have J₉a : EdgeJ
          ((sr.upd (s.terms.length + 1) fun t =>
            { t with children := t.children ++ [s.terms.length] }).upd
            s.terms.length fun t =>
            { t with parents := t.parents ++ [s.terms.length + 1] })
          s.terms.length (s.terms.length + 1) := by
        constructor
        · rw [term_upd, if_pos ⟨rfl, by rw [length_upd, lsr]; omega⟩]
          show ((sr.upd (s.terms.length + 1) fun t =>
            { t with children := t.children ++ [s.terms.length] }).term
            s.terms.length).parents ++ [s.terms.length + 1] =
            [s.terms.length + 1]
          rw [p₁n]
          rfl
        · rw [term_upd, if_neg (by rintro ⟨h1, h2⟩; omega),
            term_upd, if_pos ⟨rfl, by rw [lsr]; omega⟩]
          show s.terms.length ∈ (sr.term (s.terms.length + 1)).children
            ++ [s.terms.length]
          rw [csr]
          exact List.mem_cons_self _ _
      have J₉b : EdgeJ
          ((sr.upd (s.terms.length + 1) fun t =>
            { t with children := t.children ++ [s.terms.length] }).upd
            s.terms.length fun t =>
            { t with parents := t.parents ++ [s.terms.length + 1] })
          (s.terms.length + 1) 0 := by
        constructor
        · rw [term_upd, if_neg (by rintro ⟨h1, h2⟩; omega),
            term_upd, if_pos ⟨rfl, by rw [lsr]; omega⟩]
          show (sr.term (s.terms.length + 1)).parents = [0]
          exact psr
        · rw [term_upd, if_neg (by rintro ⟨h1, h2⟩; omega),
            term_upd, if_neg (by rintro ⟨h1, h2⟩; omega)]
          exact msr
      have K₉a := pruneGo_keepJ s.terms.length (s.terms.length + 1)
        (g + 1 + 1) _ (.tree 0) s' hpf J₉a
      have K₉b := pruneGo_keepJ (s.terms.length + 1) 0
        (g + 1 + 1) _ (.tree 0) s' hpf J₉b
      have Sh₉ := pruneGo_shrinks (g + 1 + 1) _ (.tree 0) s' hpf
      obtain ⟨l₉, a₉, r₉, ⟨pre₉, log₉⟩, f₉⟩ := Sh₉
      refine ⟨?_, ?_, K₉b.1, K₉b.2, ?_, K₉a.1, K₉a.2⟩
      · rw [log₉]
        refine List.mem_append_right _ ?_
        show parentMissing y ∈ sr.log
        rw [logr]
        refine List.mem_append_right _ ?_
        exact List.mem_cons_self _ _
      · rw [(f₉ (s.terms.length + 1)).1]
        rw [term_upd, if_neg (by rintro ⟨h1, h2⟩; omega),
          term_upd, if_pos ⟨rfl, by rw [lsr]; omega⟩]
        show (sr.term (s.terms.length + 1)).name = y
        rw [nmr, if_pos rfl]
      · rw [(f₉ s.terms.length).1]
        rw [term_upd, if_pos ⟨rfl, by rw [length_upd, lsr]; omega⟩]
        show ((sr.upd (s.terms.length + 1) fun t =>
          { t with children := t.children ++ [s.terms.length] }).term
          s.terms.length).name = x
        rw [term_upd, if_neg (by rintro ⟨h1, h2⟩; omega)]
        rw [nmr, if_neg (by omega), if_pos rfl]

/-- C5, witness: `add_kind_of dog mammal` on the initial knowledge base
warns about the unknown parent and builds object → mammal → dog. -/
theorem claim_C5_witness :
    parentMissing "mammal" ∈ wC5.log ∧
    (wC5.term 2).name = "mammal" ∧
    (wC5.term 2).parents = [0] ∧
    2 ∈ (wC5.term 0).children ∧
    (wC5.term 1).name = "dog" ∧
    (wC5.term 1).parents = [2] ∧
    1 ∈ (wC5.term 2).children :=
  claim_C5_amended 24 init "dog" "mammal" wC5 rfl rfl
    (fun i => match i with
      | 0 => by decide
      | _ + 1 => show ("" : String) ≠ "dog" by decide)
    (fun i => match i with
      | 0 => by decide
      | _ + 1 => show ("" : String) ≠ "mammal" by decide)
    (by decide)
    (fun _ hc => nomatch hc)
    (by rfl)

theorem rootInv_shrinks (s s' : KB) (hI : RootInv s) (hS : Shrinks s s') :
    RootInv s' := by
  obtain ⟨ha, hl, hn, hp, hu⟩ := hI
  obtain ⟨l, a, r, lg, f⟩ := hS
  refine ⟨a.trans ha, by rw [l]; exact hl, (f 0).1.trans hn, ?_,
    fun i hi => ?_⟩
  · have hsub := (f 0).2.2
    rw [hp] at hsub
    exact List.sublist_nil.mp hsub
  · rw [(f i).1]
    exact hu i hi

theorem rootInv_alloc (s : KB) (n : String) (hI : RootInv s)
    (hn : n ≠ "object") : RootInv (s.alloc n) := by
  obtain ⟨ha, hl, hnm, hp, hu⟩ := hI
  refine ⟨ha, ?_, ?_, ?_, fun i hi => ?_⟩
  · show 0 < (s.terms ++ _).length
    rw [List.length_append]
    omega
  · rw [term_alloc, if_neg (by omega)]
    exact hnm
  · rw [term_alloc, if_neg (by omega)]
    exact hp
  · rw [term_alloc]
    by_cases h1 : i = s.terms.length
    · rw [if_pos h1]
      exact hn
    · rw [if_neg h1]
      exact hu i hi

theorem addParent_keepI (fuel : Nat) (s : KB) (c p : Nat) (s₂ : KB)
    (b : Bool) (hI : RootInv s) (hc : c ≠ 0)
    (h : addParent fuel s c p = some (s₂, b)) : RootInv s₂ := by
  unfold addParent at h
  by_cases hg : ((s.term c).parents.any
      (fun q => (s.term q).name = (s.term p).name)) = true
  · rw [if_pos hg] at h
    cases h
    exact hI
  · rw [if_neg hg] at h
    dsimp only at h
    have hI₁ : RootInv (s.upd c fun t =>
        { t with parents := t.parents ++ [p] }) := by
      obtain ⟨ha, hl, hnm, hp', hu⟩ := hI
      refine ⟨ha, ?_, ?_, ?_, fun i hi => ?_⟩
      · rw [length_upd]
        exact hl
      · rw [name_upd]
        · exact hnm
        · exact fun t => rfl
      · rw [term_upd, if_neg (fun hq => hc hq.1.symm)]
        exact hp'
      · rw [name_upd]
        · exact hu i hi
        · exact fun t => rfl
    cases hp2 : pruneTree fuel (s.upd c fun t =>
        { t with parents := t.parents ++ [p] }) 0 with
    | none => rw [hp2] at h; nomatch h
    | some s₃ =>
      rw [hp2] at h
      dsimp only at h
      cases h
      exact rootInv_shrinks _ _ hI₁ (pruneGo_shrinks fuel _ (.tree 0) s₂ hp2)

theorem addChild_keepI (fuel : Nat) (s : KB) (p c : Nat) (s₂ : KB)
    (b : Bool) (hI : RootInv s) (hc : c ≠ 0)
    (h : addChild fuel s p c = some (s₂, b)) : RootInv s₂ := by
  unfold addChild at h
  by_cases hg : ((s.term p).children.any
      (fun q => (s.term q).name = (s.term c).name)) = true
  · rw [if_pos hg] at h
    cases h
    exact hI
  · rw [if_neg hg] at h
    dsimp only at h
    refine addParent_keepI fuel _ c p s₂ b ?_ hc h
    obtain ⟨ha, hl, hnm, hp', hu⟩ := hI
    refine ⟨ha, ?_, ?_, ?_, fun i hi => ?_⟩
    · rw [length_upd]
      exact hl
    · rw [name_upd]
      · exact hnm
      · exact fun t => rfl
    · rw [parents_upd]
      · exact hp'
      · exact fun t => rfl
    · rw [name_upd]
      · exact hu i hi
      · exact fun t => rfl

theorem rootInv_removeChildByName (fuel : Nat) (s : KB) (v : Nat)
    (n : String) (s' : KB) (h : removeChildByName fuel s v n = some s')
    (hI : RootInv s) : RootInv s' := by
  unfold removeChildByName at h
  cases ht : traverse fuel s 0 n with
  | none => rw [ht] at h; nomatch h
  | some r =>
    cases r with
    | none =>
      rw [ht] at h
      cases h
      exact rootInv_shrinks _ _ hI (shrinks_say s itemMissing)
    | some c =>
      rw [ht] at h
      cases h
      exact rootInv_shrinks _ _ hI (shrinks_removeChildTerm s v c)

theorem rootInv_getTerms (fuel : Nat) (s : KB) (ns : List String) (s' : KB)
    (h : getTerms fuel s = some (ns, s')) (hI : RootInv s) : RootInv s' := by
  unfold getTerms at h
  cases hl : listReduce fuel s 0 s.lrAcc with
  | none => rw [hl] at h; nomatch h
  | some acc =>
    rw [hl] at h
    dsimp only at h
    cases h
    exact hI

theorem rootInv_isKindOf (fuel : Nat) (s : KB) (x y : String) (s' : KB)
    (r : Option Bool) (h : isKindOf fuel s x y = some (s', r))
    (hI : RootInv s) : RootInv s' := by
  unfold isKindOf at h
  cases h1 : traverse fuel s 0 y with
  | none => rw [h1] at h; nomatch h
  | some r1 =>
    cases r1 with
    | none =>
      rw [h1] at h
      cases h
      exact rootInv_shrinks _ _ hI (shrinks_say s (parentAbsent y))
    | some p =>
      rw [h1] at h
      dsimp only at h
      cases h2 : traverse fuel s p x with
      | none => rw [h2] at h; nomatch h
      | some r2 =>
        cases r2 with
        | none => rw [h2] at h; cases h; exact hI
        | some q => rw [h2] at h; cases h; exact hI

theorem addKindOf_keepI : ∀ (fuel : Nat) (s : KB) (x y : String) (s' : KB),
    RootInv s → x ≠ "object" → addKindOf fuel s x y = some s' → RootInv s'
  | 0, _, _, _, _, _, _, h => by nomatch h
  | fuel + 1, s, x, y, s', hI, hx, h => by
    simp only [addKindOf] at h
    cases ht1 : traverse (fuel + 1) s 0 x with
    | none => rw [ht1] at h; nomatch h
    | some r1 =>
    rw [ht1] at h
    dsimp only at h
    cases r1 with
    | some xi =>
      dsimp only at h
      have hxi : xi ≠ 0 := by
        intro h0
        have hnm := traverse_found _ _ _ _ _ hI.1 ht1
        rw [h0, hI.2.2.1] at hnm
        exact hx hnm.symm
      cases ht2 : traverse (fuel + 1) s 0 y with
      | none => rw [ht2] at h; nomatch h
      | some r2 =>
      cases r2 with
      | some j =>
        rw [ht2] at h
        dsimp only at h
        cases hac : addChild (fuel + 1) s j xi with
        | none => rw [hac] at h; nomatch h
        | some pr =>
          cases pr with
          | mk s₂ b =>
            rw [hac] at h
            dsimp only at h
            cases h
            exact addChild_keepI (fuel + 1) s j xi s' b hI hxi hac
      | none =>
        rw [ht2] at h
        dsimp only at h
        have hy : y ≠ "object" := by
          intro h0
          subst h0
          have hhit := traverse_hit fuel s 0 "object"
            (by rw [resolve_nil _ _ hI.1]; exact hI.2.2.1)
          rw [ht2] at hhit
          nomatch hhit
        cases har : addKindOf fuel (s.say (parentMissing y)) y
            "object" with
        | none => rw [har] at h; nomatch h
        | some s₃ =>
          rw [har] at h
          dsimp only at h
          have hI₃ : RootInv s₃ :=
            addKindOf_keepI fuel _ y "object" s₃
              (rootInv_shrinks _ _ hI (shrinks_say s (parentMissing y)))
              hy har
          cases ht3 : traverse (fuel + 1) s₃ 0 y with
          | none => rw [ht3] at h; nomatch h
          | some r3 =>
          cases r3 with
          | none => rw [ht3] at h; nomatch h
          | some j =>
            rw [ht3] at h
            dsimp only at h
            cases hac : addChild (fuel + 1) s₃ j xi with
            | none => rw [hac] at h; nomatch h
            | some pr =>
              cases pr with
              | mk s₄ b =>
                rw [hac] at h
                dsimp only at h
                cases h
                exact addChild_keepI (fuel + 1) s₃ j xi s' b hI₃ hxi hac
    | none =>
      dsimp only at h
      have hI₁ : RootInv (s.alloc x) := rootInv_alloc s x hI hx
      have hxi : s.terms.length ≠ 0 := by
        have := hI.2.1
        omega
      cases ht2 : traverse (fuel + 1) (s.alloc x) 0 y with
      | none => rw [ht2] at h; nomatch h
      | some r2 =>
      cases r2 with
      | some j =>
        rw [ht2] at h
        dsimp only at h
        cases hac : addChild (fuel + 1) (s.alloc x) j s.terms.length with
        | none => rw [hac] at h; nomatch h
        | some pr =>
          cases pr with
          | mk s₂ b =>
            rw [hac] at h
            dsimp only at h
            cases h
            exact addChild_keepI (fuel + 1) (s.alloc x) j s.terms.length
              s' b hI₁ hxi hac
      | none =>
        rw [ht2] at h
        dsimp only at h
        have hy : y ≠ "object" := by
          intro h0
          subst h0
          have hhit := traverse_hit fuel (s.alloc x) 0 "object"
            (by
              rw [resolve_nil _ _ hI₁.1]
              exact hI₁.2.2.1)
          rw [ht2] at hhit
          nomatch hhit
        cases har : addKindOf fuel ((s.alloc x).say (parentMissing y)) y
            "object" with
        | none => rw [har] at h; nomatch h
        | some s₃ =>
          rw [har] at h
          dsimp only at h
          have hI₃ : RootInv s₃ :=
            addKindOf_keepI fuel _ y "object" s₃
              (rootInv_shrinks _ _ hI₁
                (shrinks_say (s.alloc x) (parentMissing y)))
              hy har
          cases ht3 : traverse (fuel + 1) s₃ 0 y with
          | none => rw [ht3] at h; nomatch h
          | some r3 =>
          cases r3 with
          | none => rw [ht3] at h; nomatch h
          | some j =>
            rw [ht3] at h
            dsimp only at h
            cases hac : addChild (fuel + 1) s₃ j s.terms.length with
            | none => rw [hac] at h; nomatch h
            | some pr =>
              cases pr with
              | mk s₄ b =>
                rw [hac] at h
                dsimp only at h
                cases h
                exact addChild_keepI (fuel + 1) s₃ j s.terms.length
                  s' b hI₃ hxi hac

theorem reachableNA_inv : ∀ (s : KB), ReachableNA s → RootInv s := by
  intro s h
  induction h with
  | start =>
    refine ⟨rfl, by decide, rfl, rfl, fun i hi => ?_⟩
    match i, hi with
    | 0, hi => exact absurd rfl hi
    | j + 1, _ => exact show ("" : String) ≠ "object" by decide
  | addRel s fuel x y s' hr hx hadd ih =>
    exact addKindOf_keepI fuel s x y s' ih hx hadd
  | rmChild s fuel v n s' hr hrm ih =>
    exact rootInv_removeChildByName fuel s v n s' hrm ih
  | rmParent s fuel v n s' hr hrm ih =>
    exact rootInv_shrinks _ _ ih (shrinks_removeParentByName fuel s v n s' hrm)
  | prune s fuel s' hr hpr ih =>
    exact rootInv_shrinks _ _ ih (pruneGo_shrinks fuel s (.tree 0) s' hpr)
  | query s fuel ns s' hr hq ih =>
    exact rootInv_getTerms fuel s ns s' hq ih
  | ask s fuel x y s' r hr hq ih =>
    exact rootInv_isKindOf fuel s x y s' r hq ih

/-- C8 (amended): along every run of the interactive operations that
declares no alias and never adds `object` itself as the new child of a
relationship, node 0 exists, is named `object`, has no parents, and is
the only node named `object`. -/
theorem claim_C8_amended (s : KB) (h : ReachableNA s) :
    0 < s.terms.length ∧ (s.term 0).name = "object" ∧
    (s.term 0).parents = [] ∧ ∀ i, (s.term i).name = "object" → i = 0 := by
  have hI : RootInv s := reachableNA_inv s h
  refine ⟨hI.2.1, hI.2.2.1, hI.2.2.2.1, fun i hi => ?_⟩
  by_contra h0
  exact hI.2.2.2.2 i h0 hi

/-- C8, witness: the alias-free run consisting of the single command
`dog is a kind of mammal` keeps the root unique, named and parentless. -/
theorem claim_C8_witness :
    0 < wC5.terms.length ∧ (wC5.term 0).name = "object" ∧
    (wC5.term 0).parents = [] ∧
    ((wC5.term 1).name = "object" → (1 : Nat) = 0) :=
  have H := claim_C8_amended wC5
    (.addRel init 25 "dog" "mammal" wC5 .start (by decide) (by rfl))
  ⟨H.1, H.2.1, H.2.2.1, H.2.2.2 1⟩

end Knowledge
